import Mathlib

/-!
# geoipsed — formal verification of the spec against the source

Shallow embedding of the IP-extraction and decoration pipeline of the
`geoipsed` repository.  Byte strings are modelled as `List Nat` (each
element an octet value).  Pure Rust functions are translated to Lean
functions; the build-time DFA (whose compiled bytes are generated by
`build.rs` and interpreted by the external `regex-automata` crate) is
abstracted as a candidate stream, per §4.1 of the design spec.
-/

namespace GeoIpSed


/-- ASCII decimal digit `0`..`9`. -/
def isDig (b : Nat) : Bool := 48 ≤ b && b ≤ 57

/-- ASCII hex digit `0-9a-fA-F`. -/
def isHexDig (b : Nat) : Bool := isDig b || (97 ≤ b && b ≤ 102) || (65 ≤ b && b ≤ 70)

/-- `is_ip_char` from `crates/ip-extract/src/lib.rs`: `[0-9a-fA-F.:]`. -/
def is_ip_char (b : Nat) : Bool := isHexDig b || b == 46 || b == 58

/-- Value of a list of ASCII decimal digits, most significant first. -/
def decVal (ds : List Nat) : Nat := ds.foldl (fun a b => a * 10 + (b - 48)) 0

/-- Split a byte string at `.` (byte 46); always returns a nonempty list of
dot-free parts whose dot-interleaved concatenation is the input. -/
def splitDots : List Nat → List (List Nat)
  | [] => [[]]
  | b :: bs =>
    if b = 46 then [] :: splitDots bs
    else
      match splitDots bs with
      | [] => [[b]]
      | p :: ps => (b :: p) :: ps

/-- A byte string is a valid decimal octet: nonempty, all digits, value at
most 255, and no leading zero when longer than one digit (§4.2). -/
def octetOk (p : List Nat) : Bool :=
  !p.isEmpty && p.all isDig && decide (decVal p ≤ 255)
    && !(decide (1 < p.length) && p.headD 0 == 48)

/-- Specification-side IPv4 parse: exactly four dot-separated valid octets
(§4.2 of the spec, property 5 of §8). -/
def ipv4Spec (bytes : List Nat) : Option (List Nat) :=
  if (splitDots bytes).length = 4 ∧ (splitDots bytes).all octetOk
  then some ((splitDots bytes).map decVal) else none

/-- Inner loop of `parse_ipv4_bytes` (ip-extract `lib.rs`), state
`(acc, current_val, digits_in_octet)` folded over the input bytes. -/
def pv4Loop : List Nat → List Nat → Nat → Nat → Option (List Nat)
  | [], acc, val, digs =>
    if acc.length = 3 ∧ digs ≠ 0 then some (acc ++ [val]) else none
  | b :: bs, acc, val, digs =>
    if b = 46 then
      if digs = 0 ∨ acc.length = 3 then none
      else pv4Loop bs (acc ++ [val]) 0 0
    else if isDig b then
      if 0 < digs ∧ val = 0 then none
      else if 255 < val * 10 + (b - 48) then none
      else pv4Loop bs acc (val * 10 + (b - 48)) (digs + 1)
    else none

/-- `parse_ipv4_bytes` from `crates/ip-extract/src/lib.rs`: length gate
`[7,15]`, then the strict byte-level dotted-quad parse. -/
def parse_ipv4_bytes (bytes : List Nat) : Option (List Nat) :=
  if bytes.length < 7 ∨ 15 < bytes.length then none
  else pv4Loop bytes [] 0 0

/-! ## Model of the Rust standard library IP text parser (`core::net::parser`)

The repository delegates IPv6 parsing (and, in the main crate, IPv4
parsing) to `str::parse::<IpAddr>` of the Rust standard library, an
external collaborator.  Modelled from the spec (§4.2: "delegated to a
standards-conformant IP parsing routine") following the standard
recursive-descent algorithm: groups of at most four hex digits separated
by `:`, one optional `::`, an optional trailing embedded dotted quad, and
strict dotted-quad parsing with no leading zeros for IPv4. -/

/-- `Char::to_digit` on a byte, for radix 10 or 16. -/
def digitVal (radix b : Nat) : Option Nat :=
  if isDig b then some (b - 48)
  else if radix = 16 ∧ 97 ≤ b ∧ b ≤ 102 then some (b - 87)
  else if radix = 16 ∧ 65 ≤ b ∧ b ≤ 70 then some (b - 55)
  else none

/-- Greedy digit run: maximal prefix of digits of the given radix. -/
def readDigits (radix : Nat) : List Nat → List Nat × List Nat
  | [] => ([], [])
  | b :: bs =>
    if (digitVal radix b).isSome then
      ((b :: (readDigits radix bs).1), (readDigits radix bs).2)
    else ([], b :: bs)

/-- Numeric value of a digit run in the given radix. -/
def radixVal (radix : Nat) (ds : List Nat) : Nat :=
  ds.foldl (fun a b => a * radix + (digitVal radix b).getD 0) 0

/-- `Parser::read_number`: greedy digits, bounded digit count, checked
arithmetic in the target integer type (capacity `cap`), and leading-zero
rejection when `allowZero` is false. -/
def readNumber (radix maxDigits cap : Nat) (allowZero : Bool) (l : List Nat) :
    Option (Nat × List Nat) :=
  if (readDigits radix l).1 = [] then none
  else if maxDigits < (readDigits radix l).1.length then none
  else if cap < radixVal radix (readDigits radix l).1 then none
  else if !allowZero ∧ (readDigits radix l).1.headD 0 = 48 ∧
      1 < (readDigits radix l).1.length then none
  else some (radixVal radix (readDigits radix l).1, (readDigits radix l).2)

/-- `Parser::read_separator`: for group index `i > 0`, a separator byte
must precede the inner parse. -/
def readSep {α : Type} (sep i : Nat) (inner : List Nat → Option (α × List Nat))
    (l : List Nat) : Option (α × List Nat) :=
  if i = 0 then inner l
  else
    match l with
    | b :: bs => if b = sep then inner bs else none
    | [] => none

/-- `Parser::read_ipv4_addr`: four dot-separated `u8` decimal groups with
no leading zeros. -/
def readIpv4Addr (l : List Nat) : Option (List Nat × List Nat) :=
  match readNumber 10 3 255 false l with
  | none => none
  | some (a, l1) =>
    match readSep 46 1 (readNumber 10 3 255 false) l1 with
    | none => none
    | some (b, l2) =>
      match readSep 46 2 (readNumber 10 3 255 false) l2 with
      | none => none
      | some (c, l3) =>
        match readSep 46 3 (readNumber 10 3 255 false) l3 with
        | none => none
        | some (d, l4) => some ([a, b, c, d], l4)

/-- `read_groups` from `read_ipv6_addr`, with `fuel = limit - i`: at each
index first try a trailing embedded IPv4 quad (allowed only when at least
two group slots remain), then an ordinary hex group. -/
def readGroupsAux : Nat → Nat → List Nat → List Nat → Nat × Bool × List Nat × List Nat
  | 0, i, acc, l => (i, false, acc, l)
  | fuel + 1, i, acc, l =>
    match (if 1 ≤ fuel then readSep 58 i readIpv4Addr l else none) with
    | some (q, rest) =>
      (i + 2, true,
        acc ++ [q.getD 0 0 * 256 + q.getD 1 0, q.getD 2 0 * 256 + q.getD 3 0], rest)
    | none =>
      match readSep 58 i (readNumber 16 4 65535 true) l with
      | some (g, rest) => readGroupsAux fuel (i + 1) (acc ++ [g]) rest
      | none => (i, false, acc, l)

/-- `read_groups(p, &mut groups[..limit])`. -/
def readGroups (limit : Nat) (l : List Nat) : Nat × Bool × List Nat × List Nat :=
  readGroupsAux limit 0 [] l

/-- `Parser::read_ipv6_addr`: head groups, then an optional `::` followed
by tail groups; an embedded IPv4 part is rejected before `::`. -/
def readIpv6Addr (l : List Nat) : Option (List Nat × List Nat) :=
  match readGroups 8 l with
  | (headSize, headV4, headG, l1) =>
    if headSize = 8 then some (headG, l1)
    else if headV4 then none
    else
      match l1 with
      | 58 :: 58 :: l2 =>
        match readGroups (8 - (headSize + 1)) l2 with
        | (tailSize, _, tailG, l3) =>
          some (headG ++ List.replicate (8 - headSize - tailSize) 0 ++ tailG, l3)
      | _ => none

/-- `Ipv4Addr::from_str`: the quad parse must consume the whole string. -/
def rustParseIpv4 (l : List Nat) : Option (List Nat) :=
  match readIpv4Addr l with
  | some (q, []) => some q
  | _ => none

/-- `Ipv6Addr::from_str`: the group parse must consume the whole string. -/
def rustParseIpv6 (l : List Nat) : Option (List Nat) :=
  match readIpv6Addr l with
  | some (g, []) => some g
  | _ => none

/-- `IpAddr::from_str`: IPv4 is tried first (its read result, complete or
not, wins the alternation), then IPv6; the chosen read must consume the
whole string. -/
def rustParseIpAddr (l : List Nat) : Option (List Nat ⊕ List Nat) :=
  match readIpv4Addr l with
  | some (q, rest) => if rest = [] then some (.inl q) else none
  | none =>
    match readIpv6Addr l with
    | some (g, rest) => if rest = [] then some (.inr g) else none
    | none => none

/-- Rebuild a byte string from its dot-split parts. -/
def joinDots : List (List Nat) → List Nat
  | [] => []
  | [p] => p
  | p :: ps => p ++ 46 :: joinDots ps

/-! ## UTF-8 validity and the IPv4 validators of both crates -/

/-- Lead-byte classification for RFC 3629 UTF-8: number of continuation
bytes and the admissible range of the next byte; `none` for an invalid
lead byte. -/
def utf8Lead (b : Nat) : Option (Nat × Nat × Nat) :=
  if b ≤ 127 then some (0, 128, 191)
  else if 194 ≤ b ∧ b ≤ 223 then some (1, 128, 191)
  else if b = 224 then some (2, 160, 191)
  else if (225 ≤ b ∧ b ≤ 236) ∨ b = 238 ∨ b = 239 then some (2, 128, 191)
  else if b = 237 then some (2, 128, 159)
  else if b = 240 then some (3, 144, 191)
  else if 241 ≤ b ∧ b ≤ 243 then some (3, 128, 191)
  else if b = 244 then some (3, 128, 143)
  else none

/-- One step of the UTF-8 validation automaton: state = pending
continuation count with the admissible range of the next byte. -/
def utf8Step (st : Nat × Nat × Nat) (b : Nat) : Option (Nat × Nat × Nat) :=
  match st with
  | (0, _, _) => utf8Lead b
  | (k + 1, lo, hi) => if lo ≤ b ∧ b ≤ hi then some (k, 128, 191) else none

/-- RFC 3629 UTF-8 validity of a byte sequence (`str::from_utf8`). -/
def utf8Valid (l : List Nat) : Bool :=
  match l.foldl (fun st b => st.bind (fun s => utf8Step s b))
      (some ((0 : Nat), (128 : Nat), (191 : Nat))) with
  | some (0, _, _) => true
  | _ => false

/-- `Ipv4Addr::is_private` (RFC 1918). -/
def ipv4IsPrivate (q : List Nat) : Bool :=
  q.getD 0 0 == 10 ||
    (q.getD 0 0 == 172 && (decide (16 ≤ q.getD 1 0) && decide (q.getD 1 0 ≤ 31))) ||
    (q.getD 0 0 == 192 && q.getD 1 0 == 168)

/-- `Ipv4Addr::is_loopback` (`127.0.0.0/8`). -/
def ipv4IsLoopback (q : List Nat) : Bool := q.getD 0 0 == 127

/-- `Ipv4Addr::is_broadcast` (`255.255.255.255`). -/
def ipv4IsBroadcast (q : List Nat) : Bool := q == [255, 255, 255, 255]

/-- `Ipv4Addr::is_link_local` (`169.254.0.0/16`). -/
def ipv4IsLinkLocal (q : List Nat) : Bool :=
  q.getD 0 0 == 169 && q.getD 1 0 == 254

/-- `validate_ipv4` from `crates/ip-extract/src/lib.rs`: the byte-level
strict parse, then the category filters. -/
def validate_ipv4 (bytes : List Nat)
    (include_private include_loopback include_broadcast : Bool) : Bool :=
  match parse_ipv4_bytes bytes with
  | none => false
  | some q =>
    if !include_private && ipv4IsPrivate q then false
    else if !include_loopback && ipv4IsLoopback q then false
    else if !include_broadcast && (ipv4IsBroadcast q || ipv4IsLinkLocal q) then false
    else true

/-- `validate_ipv4` from `src/extractor.rs` (main crate): length gate
`[7,15]`, UTF-8 decode, standard-library `IpAddr` parse, match on the V4
arm, then the category filters with an all-included fast path. -/
def extractorValidate_ipv4 (bytes : List Nat)
    (include_private include_loopback include_broadcast : Bool) : Bool :=
  if bytes.length < 7 ∨ 15 < bytes.length then false
  else if !(utf8Valid bytes) then false
  else
    match rustParseIpAddr bytes with
    | some (.inl q) =>
      if include_private && include_loopback && include_broadcast then true
      else if !include_private && ipv4IsPrivate q then false
      else if !include_loopback && ipv4IsLoopback q then false
      else if !include_broadcast && (ipv4IsBroadcast q || ipv4IsLinkLocal q) then false
      else true
    | _ => false

/-- The IPv4 arm of `ValidatorType::validate` from `src/extractor.rs`:
fast path (plain `Ipv4Addr` parse) when every category is included and the
routability gate is off, otherwise the full `validate_ipv4`. -/
def extractorValidatorIPv4 (bytes : List Nat)
    (include_private include_loopback include_broadcast only_routable : Bool) : Bool :=
  if include_private && include_loopback && include_broadcast && !only_routable then
    utf8Valid bytes && (rustParseIpv4 bytes).isSome
  else extractorValidate_ipv4 bytes include_private include_loopback include_broadcast

/-- Byte list of an ASCII string literal. -/
def strBytes (s : String) : List Nat := s.data.map Char.toNat

/-! ## IPv6 validators of both crates -/

/-- `Ipv6Addr::is_unicast_link_local`: `(segments[0] & 0xffc0) == 0xfe80`
(on 16-bit groups, equivalently the top ten bits equal `0x3fa`). -/
def ipv6IsUnicastLinkLocal (g : List Nat) : Bool := g.getD 0 0 / 64 == 1018

/-- `is_unique_local` from `crates/ip-extract/src/lib.rs`: first octet
`0xfc` or `0xfd` (RFC 4193 `fc00::/7`). -/
def is_unique_local (g : List Nat) : Bool :=
  g.getD 0 0 / 256 == 252 || g.getD 0 0 / 256 == 253

/-- `Ipv6Addr::is_loopback`: `::1`. -/
def ipv6IsLoopback (g : List Nat) : Bool := g == [0, 0, 0, 0, 0, 0, 0, 1]

/-- `validate_ipv6` from `crates/ip-extract/src/lib.rs`: length gate,
standard-library parse, rejection of link-local and unique-local under
`include_private` and of `::1` under `include_loopback`. -/
def validate_ipv6 (bytes : List Nat)
    (include_private include_loopback : Bool) : Bool :=
  if bytes.length < 2 then false
  else
    match rustParseIpAddr bytes with
    | some (.inr g) =>
      if !include_private && (ipv6IsUnicastLinkLocal g || is_unique_local g) then false
      else if !include_loopback && ipv6IsLoopback g then false
      else true
    | _ => false

/-- `validate_ipv6` from `src/extractor.rs` (main crate): same shape with
an all-included fast path, a UTF-8 decode, and **no unique-local
(`fc00::/7`) check**. -/
def extractorValidate_ipv6 (bytes : List Nat)
    (include_private include_loopback : Bool) : Bool :=
  if bytes.length < 2 then false
  else if !(utf8Valid bytes) then false
  else
    match rustParseIpAddr bytes with
    | some (.inr g) =>
      if include_private && include_loopback then true
      else if !include_private && ipv6IsUnicastLinkLocal g then false
      else if !include_loopback && ipv6IsLoopback g then false
      else true
    | _ => false

/-! ## Template engine (`src/template.rs`) -/

/-- A compiled template part: a literal byte string or a field reference. -/
inductive TPart : Type
  | lit : List Nat → TPart
  | field : List Nat → TPart
deriving DecidableEq

/-- `template[i + 1..].find(blockclose)` from `Template::compile`: split the
rest of the input at the first `\x7d` (byte 125), or `none` when there is
none. -/
def breakAtClose : List Nat → Option (List Nat × List Nat)
  | [] => none
  | b :: bs =>
    if b = 125 then some ([], bs)
    else (breakAtClose bs).map (fun p => (b :: p.1, p.2))

/-- Flush the accumulated literal into the part list (`Template::compile`
pushes a `Literal` part only when nonempty). -/
def flushParts (lit : List Nat) (parts : List TPart) : List TPart :=
  if lit.isEmpty then parts else parts ++ [TPart.lit lit]

/-- Size estimate bookkeeping of `Template::compile`. -/
def flushSize (lit : List Nat) (size : Nat) : Nat :=
  if lit.isEmpty then size else size + lit.length

/-- The scanning loop of `Template::compile`, fuelled by the number of
remaining input bytes (each iteration consumes at least one byte, so fuel
equal to the input length always suffices). -/
def compileGo : Nat → List Nat → List Nat → List TPart → Nat →
    Option (List TPart × Nat)
  | _, [], lit, parts, size => some (flushParts lit parts, flushSize lit size)
  | 0, _ :: _, _, _, _ => none
  | fuel + 1, b :: rest, lit, parts, size =>
    if b = 123 then
      if rest.head? = some 123 then compileGo fuel rest.tail (lit ++ [123]) parts size
      else
        match breakAtClose rest with
        | some (name, after) =>
          if name.isEmpty then none
          else compileGo fuel after []
            (flushParts lit parts ++ [TPart.field name]) (flushSize lit size + 16)
        | none => compileGo fuel rest (lit ++ [123]) parts size
    else if b = 125 ∧ rest.head? = some 125 then
      compileGo fuel rest.tail (lit ++ [125]) parts size
    else compileGo fuel rest (lit ++ [b]) parts size

/-- `Template::compile` from `src/template.rs`: `none` models the
`TemplateError` return. -/
def templateCompile (l : List Nat) : Option (List TPart × Nat) :=
  compileGo l.length l [] [] 0

/-- Specification-side error predicate: scanning left to right, a field
opener `\x7b` that is not part of a `\x7b\x7b` escape and whose matching
`\x7d` encloses an empty name. -/
def hasEmptyRefGo : Nat → List Nat → Bool
  | _, [] => false
  | 0, _ :: _ => false
  | fuel + 1, b :: rest =>
    if b = 123 then
      if rest.head? = some 123 then hasEmptyRefGo fuel rest.tail
      else
        match breakAtClose rest with
        | some (name, after) => name.isEmpty || hasEmptyRefGo fuel after
        | none => hasEmptyRefGo fuel rest
    else if b = 125 ∧ rest.head? = some 125 then hasEmptyRefGo fuel rest.tail
    else hasEmptyRefGo fuel rest

/-- The format string contains an empty field reference. -/
def hasEmptyRef (l : List Nat) : Bool := hasEmptyRefGo l.length l

/-- `Template::render`: a single pass concatenating literal parts and
looked-up field values; values are never rescanned. -/
def renderParts (parts : List TPart) (f : List Nat → List Nat) : List Nat :=
  parts.foldl (fun acc p => acc ++ (match p with
    | TPart.lit s => s
    | TPart.field n => f n)) []

/-- `HashMap` lookup with an empty-string default (`render_with_map`). -/
def lookupAssoc (values : List (List Nat × List Nat)) (name : List Nat) :
    List Nat :=
  ((values.find? (fun kv => kv.1 == name)).map Prod.snd).getD []

/-- `str::replace`: replace every non-overlapping occurrence of `pat`,
scanning left to right (fuelled by the input length). -/
def replScan : Nat → List Nat → List Nat → List Nat → List Nat
  | _, [], _, _ => []
  | 0, l, _, _ => l
  | fuel + 1, b :: bs, pat, rep =>
    if !pat.isEmpty && pat.isPrefixOf (b :: bs) then
      rep ++ replScan fuel ((b :: bs).drop pat.length) pat rep
    else b :: replScan fuel bs pat rep

/-- `str::replace(pat, rep)` on byte strings. -/
def replaceAllBytes (l pat rep : List Nat) : List Nat := replScan l.length l pat rep

/-- `apply_template` from `src/mmdb.rs`: for each `(key, value)` pair, in
the iteration order of the `HashMap` (modelled by the list order),
sequentially `str::replace` the placeholder `\x7bkey\x7d` in the running
result. -/
def applyTemplate (template : List Nat) (values : List (List Nat × List Nat)) :
    List Nat :=
  values.foldl (fun acc kv => replaceAllBytes acc (123 :: (kv.1 ++ [125])) kv.2) template

/-- `.replace(' ', "_")` as applied to the rendered result. -/
def replaceSpaces (l : List Nat) : List Nat := l.map (fun b => if b = 32 then 95 else b)

/-- Tail of `MaxMindProvider::lookup` (`src/mmdb.rs`): apply the template
to the value table, then replace every space with an underscore. -/
def mmdbLookupRender (template : List Nat) (values : List (List Nat × List Nat)) :
    List Nat :=
  replaceSpaces (applyTemplate template values)

/-! ## `GeoIPSed::lookup` cache behavior (`src/geoip.rs`) -/

/-- `IP_CACHE.get`, on an association-list model of the cache. -/
def cacheGet (cache : List (List Nat × List Nat)) (s : List Nat) :
    Option (List Nat) :=
  (cache.find? (fun kv => kv.1 == s)).map Prod.snd

/-- `IP_CACHE.insert` (newest entry shadows older ones). -/
def cacheInsert (cache : List (List Nat × List Nat)) (s v : List Nat) :
    List (List Nat × List Nat) :=
  (s, v) :: cache

/-- The provider-registry path of `GeoIPSed::lookup` (`src/geoip.rs`):
check the cache; on a miss, if the string parses as an IP address, apply
the `only_routable`/`has_asn` gate (emitting the match unchanged and
caching it), otherwise consult the provider and cache its result; parse
failures and provider errors fall through to the legacy method, modelled
by the `legacy` parameter. -/
def geoipLookup (onlyRoutable : Bool) (hasAsn : List Nat → Bool)
    (provLookup : List Nat → Option (List Nat))
    (legacy : List (List Nat × List Nat) → List Nat × List (List Nat × List Nat))
    (s : List Nat) (cache : List (List Nat × List Nat)) :
    List Nat × List (List Nat × List Nat) :=
  match cacheGet cache s with
  | some v => (v, cache)
  | none =>
    if (rustParseIpAddr s).isSome then
      if onlyRoutable && !(hasAsn s) then (s, cacheInsert cache s s)
      else
        match provLookup s with
        | some r => (r, cacheInsert cache s r)
        | none => legacy cache
    else legacy cache

/-! ## The extractor search loop (`Extractor::find_iter`,
`crates/ip-extract/src/lib.rs` lines 213-270)

The build-time DFA (`build.rs` + `regex-automata`) is external to the
repository; it is modelled from the spec as a candidate-stream oracle
`dfa : Nat → Option (Nat × Nat)`: from search position `pos` it reports
the next candidate match (`end offset`, `pattern id`), or `none`. -/

/-- Slice `h[s..e)` of a byte string. -/
def sliceList (h : List Nat) (s e : Nat) : List Nat := (h.drop s).take (e - s)

/-- Backward scan of `find_iter`: from the candidate end walk backward at
most 40 bytes, to the highest position at the buffer start or whose
preceding byte is not an IP character; if none qualifies, the 40-byte
floor. -/
def backscanStart (h : List Nat) (e : Nat) : Nat :=
  ((List.range' (e - 40) (e - (e - 40))).reverse.find?
    (fun i => i == 0 || !(is_ip_char (h.getD (i - 1) 0)))).getD (e - 40)

/-- A pattern's validator with its configuration: `v4 include_private
include_loopback include_broadcast` or `v6 include_private
include_loopback`. -/
inductive Validator : Type
  | v4 : Bool → Bool → Bool → Validator
  | v6 : Bool → Bool → Validator
deriving DecidableEq

/-- Validator dispatch (`ValidatorType::validate` of the ip-extract
crate). -/
def validatorAccepts : Validator → List Nat → Bool
  | Validator.v4 p l b, bytes => validate_ipv4 bytes p l b
  | Validator.v6 p l, bytes => validate_ipv6 bytes p l

/-- Right-boundary check of `find_iter`: at the end of the haystack the
check passes; otherwise an IPv4 candidate is rejected when the next byte
is a digit, or a dot followed by a digit, and an IPv6 candidate is
rejected when the next byte is any IP character. -/
def rightBoundaryOk (h : List Nat) (v : Validator) (e : Nat) : Bool :=
  if e < h.length then
    match v with
    | Validator.v4 _ _ _ =>
      !(isDig (h.getD e 0) ||
        (h.getD e 0 == 46 && decide (e + 1 < h.length) && isDig (h.getD (e + 1) 0)))
    | Validator.v6 _ _ => !(is_ip_char (h.getD e 0))
  else true

/-- The `find_iter` loop: take the next candidate from the oracle, advance
the search position to the candidate end unconditionally, backward-scan
for the true start, and emit the range when the right boundary and the
validator both accept. Fuel `h.length + 1` suffices because the search
position strictly increases and never exceeds the haystack length. -/
def findIterAux (h : List Nat) (dfa : Nat → Option (Nat × Nat))
    (vals : List Validator) : Nat → Nat → List (Nat × Nat)
  | 0, _ => []
  | fuel + 1, pos =>
    match dfa pos with
    | none => []
    | some (e, pid) =>
      match vals.get? pid with
      | none => []
      | some v =>
        if rightBoundaryOk h v e &&
            validatorAccepts v (sliceList h (backscanStart h e) e) then
          (backscanStart h e, e) :: findIterAux h dfa vals fuel e
        else findIterAux h dfa vals fuel e

/-- `Extractor::find_iter` over the whole haystack. -/
def findIter (h : List Nat) (dfa : Nat → Option (Nat × Nat))
    (vals : List Validator) : List (Nat × Nat) :=
  findIterAux h dfa vals (h.length + 1) 0

/-- The extractor built by `main.rs` with every category included: one
IPv4 pattern validator. -/
def vals5 : List Validator := [Validator.v4 true true true]

/-- Concrete candidate stream for an IPv4 quad at offsets `0..7`. -/
def dfa5a : Nat → Option (Nat × Nat) :=
  fun p => if p < 2 then some (7, 0) else none

/-- Concrete candidate stream for an IPv4 quad at offsets `1..8`. -/
def dfa5b : Nat → Option (Nat × Nat) :=
  fun p => if p < 2 then some (8, 0) else none

/-- Concrete candidate stream over `1.2.3.4.5`: the leftmost candidate
ends at 7; after the search position passes offset 2 no candidate is
left. -/
def dfa5c : Nat → Option (Nat × Nat) :=
  fun p => if p = 0 then some (7, 0) else if p ≤ 2 then some (9, 0) else none

/-! ## Shape of the text consumed by the standard-library parser -/

/-- Hex digit or colon: the bytes a non-embedded-IPv4 part of an IPv6
string may consist of. -/
def isHexColon (b : Nat) : Bool := isHexDig b || b == 58

/-- A dotted decimal quad: four dot-separated valid octets. -/
def QuadChunk (q : List Nat) : Prop :=
  ∃ d1 d2 d3 d4 : List Nat,
    q = d1 ++ 46 :: (d2 ++ 46 :: (d3 ++ 46 :: d4)) ∧
    octetOk d1 = true ∧ octetOk d2 = true ∧ octetOk d3 = true ∧ octetOk d4 = true

/-- Every byte of the text is an IP character. -/
def textIp (t : List Nat) : Prop := ∀ b ∈ t, is_ip_char b = true

/-- Every dot of the text is immediately followed, within the text, by a
decimal digit. -/
def textDotDigit (t : List Nat) : Prop :=
  ∀ i, t.get? i = some 46 → ∃ b, t.get? (i + 1) = some b ∧ isDig b = true

/-- After any dot of the text, every later byte is a digit or a dot. -/
def textAfterDot (t : List Nat) : Prop :=
  ∀ i j b, t.get? i = some 46 → i < j → t.get? j = some b →
    isDig b = true ∨ b = 46

/-! ## Non-overlap of emitted matches -/

/-- What holds of every range `find_iter` emits: its start is the backward
scan of its end, it is nonempty, in bounds, its right boundary and
validator accepted, and the byte before its start (if any) is not an IP
character. -/
def emittedOk (h : List Nat) (m : Nat × Nat) : Prop :=
  ∃ v : Validator,
    m.1 = backscanStart h m.2 ∧ m.1 < m.2 ∧ m.2 ≤ h.length ∧
    rightBoundaryOk h v m.2 = true ∧
    validatorAccepts v (sliceList h m.1 m.2) = true ∧
    (m.1 = 0 ∨ is_ip_char (h.getD (m.1 - 1) 0) = false)

/-! ## Decorate mode (`run` in `src/main.rs`, lines 312-334) -/

/-- The decorate-mode cursor loop: write the gap `line[last_pos..r.start]`,
then the decoration of the match, and continue from `r.end`; at the end
write `line[last_pos..]`. -/
def decorateGo (line : List Nat) (deco : Nat × Nat → List Nat) :
    List (Nat × Nat) → Nat → List Nat
  | [], lastPos => line.drop lastPos
  | r :: rs, lastPos =>
    sliceList line lastPos r.1 ++ deco r ++ decorateGo line deco rs r.2

/-- Decorate a whole line, starting the cursor at 0. -/
def decorate (line : List Nat) (deco : Nat × Nat → List Nat)
    (ranges : List (Nat × Nat)) : List Nat :=
  decorateGo line deco ranges 0

/-! ## Lemmas and claim theorems -/

theorem pv4Loop_nil (acc : List Nat) (val digs : Nat) :
    pv4Loop [] acc val digs =
      if acc.length = 3 ∧ digs ≠ 0 then some (acc ++ [val]) else none := rfl

theorem pv4Loop_cons (b : Nat) (bs acc : List Nat) (val digs : Nat) :
    pv4Loop (b :: bs) acc val digs =
      if b = 46 then
        if digs = 0 ∨ acc.length = 3 then none
        else pv4Loop bs (acc ++ [val]) 0 0
      else if isDig b then
        if 0 < digs ∧ val = 0 then none
        else if 255 < val * 10 + (b - 48) then none
        else pv4Loop bs acc (val * 10 + (b - 48)) (digs + 1)
      else none := rfl

/-! ## Lemmas about `splitDots`, `decVal`, `octetOk` -/

theorem splitDots_ne_nil (l : List Nat) : splitDots l ≠ [] := by
  cases l with
  | nil => simp [splitDots]
  | cons b bs =>
    simp only [splitDots]
    split
    · simp
    · cases h : splitDots bs <;> simp

theorem decVal_append (xs ys : List Nat) :
    decVal (xs ++ ys) = decVal xs * 10 ^ ys.length + decVal ys := by
  induction ys using List.reverseRecOn with
  | nil => simp [decVal]
  | append_singleton ys y ih =>
    have h1 : decVal ((xs ++ ys) ++ [y]) = decVal (xs ++ ys) * 10 + (y - 48) := by
      simp [decVal, List.foldl_append]
    have h2 : decVal (ys ++ [y]) = decVal ys * 10 + (y - 48) := by
      simp [decVal, List.foldl_append]
    rw [← List.append_assoc, h1, h2, ih, List.length_append,
      List.length_singleton, pow_add, pow_one]
    ring

theorem decVal_cons (b : Nat) (bs : List Nat) :
    decVal (b :: bs) = (b - 48) * 10 ^ bs.length + decVal bs := by
  have := decVal_append [b] bs
  simpa [decVal] using this

/-- A digit string with value 0 is all zeros. -/
theorem decVal_zero_all48 (ds : List Nat) (hd : ds.all isDig = true)
    (hz : decVal ds = 0) : ∀ b ∈ ds, b = 48 := by
  induction ds with
  | nil => simp
  | cons b bs ih =>
    rw [decVal_cons] at hz
    simp only [List.all_cons, Bool.and_eq_true] at hd
    have h48 : b - 48 = 0 := by
      by_contra hne
      have h1 : 1 ≤ b - 48 := Nat.one_le_iff_ne_zero.mpr hne
      have h2 : 1 ≤ 10 ^ bs.length := Nat.one_le_pow _ _ (by norm_num)
      have : 1 ≤ (b - 48) * 10 ^ bs.length := by
        calc 1 = 1 * 1 := by ring
        _ ≤ (b - 48) * 10 ^ bs.length := Nat.mul_le_mul h1 h2
      omega
    have hb48 : b = 48 := by
      have := hd.1
      simp only [isDig, Bool.and_eq_true, decide_eq_true_eq] at this
      omega
    intro x hx
    rcases List.mem_cons.mp hx with h | h
    · omega
    · exact ih hd.2 (by omega) x h

/-- Lower bound: a digit string with nonzero leading digit has value at
least `10 ^ (len - 1)`. -/
theorem decVal_lower (b : Nat) (bs : List Nat) (hb : isDig b = true)
    (hne : b ≠ 48) : 10 ^ bs.length ≤ decVal (b :: bs) := by
  rw [decVal_cons]
  have h1 : 1 ≤ b - 48 := by
    simp only [isDig, Bool.and_eq_true, decide_eq_true_eq] at hb
    omega
  have : 1 * 10 ^ bs.length ≤ (b - 48) * 10 ^ bs.length :=
    Nat.mul_le_mul_right _ h1
  omega

/-- Introduction form for `octetOk`. -/
theorem octetOk_intro (p : List Nat) (hne : p ≠ []) (hdig : p.all isDig = true)
    (hle : decVal p ≤ 255) (hlead : 1 < p.length → p.headD 0 ≠ 48) :
    octetOk p = true := by
  cases p with
  | nil => exact absurd rfl hne
  | cons a as =>
    simp only [octetOk, List.isEmpty_cons, Bool.not_false, Bool.true_and,
      Bool.and_eq_true, Bool.not_eq_true', Bool.and_eq_false_iff]
    refine ⟨⟨hdig, by simpa using hle⟩, ?_⟩
    by_cases hl : 1 < (a :: as).length
    · right
      have := hlead hl
      simp only [List.headD_cons] at this ⊢
      simpa [beq_eq_false_iff_ne] using this
    · left
      simpa using hl

/-- Elimination form for `octetOk`. -/
theorem octetOk_elim (p : List Nat) (h : octetOk p = true) :
    p ≠ [] ∧ p.all isDig = true ∧ decVal p ≤ 255 ∧
      (1 < p.length → p.headD 0 ≠ 48) := by
  cases p with
  | nil => simp [octetOk] at h
  | cons a as =>
    simp only [octetOk, List.isEmpty_cons, Bool.not_false, Bool.true_and,
      Bool.and_eq_true, Bool.not_eq_true', Bool.and_eq_false_iff] at h
    refine ⟨by simp, h.1.1, by simpa using h.1.2, ?_⟩
    intro hl
    rcases h.2 with hbad | hok
    · simp only [decide_eq_false_iff_not] at hbad
      exact absurd hl hbad
    · simp only [List.headD_cons] at hok ⊢
      simpa [beq_eq_false_iff_ne] using hok

/-- A valid octet string has between 1 and 3 digits. -/
theorem octetOk_length (p : List Nat) (h : octetOk p = true) :
    1 ≤ p.length ∧ p.length ≤ 3 := by
  obtain ⟨hne, hdig, hle, hlead⟩ := octetOk_elim p h
  constructor
  · cases p with
    | nil => exact absurd rfl hne
    | cons a as => simp
  · by_contra hlen
    push_neg at hlen
    cases p with
    | nil => exact absurd rfl hne
    | cons a as =>
      have ha : isDig a = true := by
        simp only [List.all_cons, Bool.and_eq_true] at hdig
        exact hdig.1
      have hane : a ≠ 48 := by
        have := hlead (by simp at hlen ⊢; omega)
        simpa using this
      have hlow := decVal_lower a as ha hane
      have hlen3 : 3 ≤ as.length := by simp at hlen; omega
      have : (10:Nat) ^ 3 ≤ 10 ^ as.length := Nat.pow_le_pow_right (by norm_num) hlen3
      have : (1000:Nat) ≤ decVal (a :: as) := by
        calc (1000:Nat) = 10 ^ 3 := by norm_num
        _ ≤ 10 ^ as.length := Nat.pow_le_pow_right (by norm_num) hlen3
        _ ≤ decVal (a :: as) := hlow
      omega

/-- `splitDots` on a cons of a dot. -/
theorem splitDots_dot_cons (l : List Nat) : splitDots (46 :: l) = [] :: splitDots l := by
  simp [splitDots]

/-- `splitDots` on a cons of a non-dot byte. -/
theorem splitDots_nondot_cons (b : Nat) (l : List Nat) (hb : b ≠ 46) :
    splitDots (b :: l) = (b :: (splitDots l).headD []) :: (splitDots l).tail := by
  simp only [splitDots, if_neg hb]
  cases h : splitDots l with
  | nil => exact absurd h (splitDots_ne_nil l)
  | cons p ps => simp

/-- `splitDots` over a dot-free prefix. -/
theorem splitDots_append_nondots (ds cs : List Nat) (h : ∀ b ∈ ds, b ≠ 46) :
    splitDots (ds ++ cs) =
      (ds ++ (splitDots cs).headD []) :: (splitDots cs).tail := by
  induction ds with
  | nil =>
    simp only [List.nil_append]
    cases hsc : splitDots cs with
    | nil => exact absurd hsc (splitDots_ne_nil cs)
    | cons p ps => simp
  | cons b bs ih =>
    have hb : b ≠ 46 := h b (by simp)
    have hbs : ∀ x ∈ bs, x ≠ 46 := fun x hx => h x (by simp [hx])
    rw [List.cons_append, splitDots_nondot_cons b (bs ++ cs) hb, ih hbs]
    simp

/-- Byte length in terms of the dot-split parts. -/
theorem splitDots_length_sum (l : List Nat) :
    l.length + 1 = ((splitDots l).map List.length).sum + (splitDots l).length := by
  induction l with
  | nil => simp [splitDots]
  | cons b bs ih =>
    by_cases hb : b = 46
    · subst hb
      rw [splitDots_dot_cons]
      simp only [List.map_cons, List.length_nil, List.sum_cons, List.length_cons]
      omega
    · rw [splitDots_nondot_cons b bs hb]
      cases hsc : splitDots bs with
      | nil => exact absurd hsc (splitDots_ne_nil bs)
      | cons p ps =>
        rw [hsc] at ih
        simp only [List.map_cons, List.sum_cons, List.length_cons, List.headD_cons,
          List.tail_cons, List.length_append] at ih ⊢
        omega

/-- Digit strings contain no dots. -/
theorem all_dig_no_dot (ds : List Nat) (h : ds.all isDig = true) :
    ∀ b ∈ ds, b ≠ 46 := by
  intro b hb
  have := List.all_eq_true.mp h b hb
  simp only [isDig, Bool.and_eq_true, decide_eq_true_eq] at this
  omega

/-! ## `parse_ipv4_bytes` equals the spec parse -/

/-- Main loop invariant: with state corresponding to a partially-read octet
`ds`, the loop computes exactly the spec characterization of the remaining
input glued to `ds`. -/
theorem pv4Loop_eq (cs : List Nat) : ∀ (ds acc : List Nat),
    ds.all isDig = true → (1 < ds.length → ds.headD 0 ≠ 48) → decVal ds ≤ 255 →
    pv4Loop cs acc (decVal ds) ds.length =
      (if (splitDots (ds ++ cs)).length + acc.length = 4 ∧
          (splitDots (ds ++ cs)).all octetOk
       then some (acc ++ (splitDots (ds ++ cs)).map decVal) else none) := by
  induction cs with
  | nil =>
    intro ds acc h1 h2 h3
    have hnd := all_dig_no_dot ds h1
    have hsd : splitDots (ds ++ []) = [ds] := by
      rw [splitDots_append_nondots ds [] hnd]
      simp [splitDots]
    rw [hsd, pv4Loop_nil]
    simp only [List.length_singleton, List.all_cons, List.all_nil, Bool.and_true,
      List.map_cons, List.map_nil]
    by_cases hacc : acc.length = 3
    · by_cases hds : ds = []
      · subst hds
        rw [if_neg (by simp), if_neg (by simp [octetOk])]
      · have hok : octetOk ds = true := octetOk_intro ds hds h1 h3 h2
        have hdne : ds.length ≠ 0 := by
          simpa [List.length_eq_zero] using hds
        rw [if_pos ⟨hacc, hdne⟩, if_pos ⟨by omega, hok⟩]
    · rw [if_neg (by intro hcon; exact hacc hcon.1),
        if_neg (by intro hcon; omega)]
  | cons c cs' ih =>
    intro ds acc h1 h2 h3
    have hnd := all_dig_no_dot ds h1
    rw [pv4Loop_cons]
    by_cases hc : c = 46
    · subst hc
      rw [if_pos rfl]
      have hsd : splitDots (ds ++ 46 :: cs') = ds :: splitDots cs' := by
        rw [splitDots_append_nondots ds (46 :: cs') hnd, splitDots_dot_cons]
        simp
      rw [hsd]
      by_cases hds : ds.length = 0
      · have hds' : ds = [] := List.length_eq_zero.mp hds
        subst hds'
        rw [if_pos (Or.inl (by simp)), if_neg]
        intro hcon
        have := hcon.2
        simp only [List.all_cons, Bool.and_eq_true] at this
        have hbad := this.1
        simp [octetOk] at hbad
      · by_cases hacc : acc.length = 3
        · rw [if_pos (Or.inr hacc)]
          have hlen : 1 ≤ (splitDots cs').length := by
            cases h : splitDots cs' with
            | nil => exact absurd h (splitDots_ne_nil cs')
            | cons p ps => simp
          rw [if_neg (by simp only [List.length_cons]; omega)]
        · have hok : octetOk ds = true :=
            octetOk_intro ds (by intro hcon; rw [hcon] at hds; simp at hds) h1 h3 h2
          rw [if_neg (by omega : ¬(ds.length = 0 ∨ acc.length = 3))]
          have hIH := ih [] (acc ++ [decVal ds]) (by simp) (by simp) (by simp [decVal])
          have h0 : decVal ([] : List Nat) = 0 := rfl
          rw [h0, List.length_nil, List.nil_append] at hIH
          rw [hIH]
          simp only [List.length_append, List.length_singleton, List.length_cons,
            List.all_cons, hok, Bool.true_and, List.map_cons, List.append_assoc,
            List.singleton_append]
          have harith : (splitDots cs').length +
                (acc.length + (List.length ([] : List Nat) + 1)) =
              (splitDots cs').length + 1 + acc.length := by
            simp only [List.length_nil]
            omega
          rw [harith]
    · rw [if_neg hc]
      by_cases hcd : isDig c = true
      · -- digit byte
        rw [if_pos hcd]
        have hsplit : splitDots (ds ++ c :: cs') =
            (ds ++ c :: (splitDots cs').headD []) :: (splitDots cs').tail := by
          rw [splitDots_append_nondots ds (c :: cs') hnd,
            splitDots_nondot_cons c cs' hc]
          simp
        by_cases hz : 0 < ds.length ∧ decVal ds = 0
        · -- leading-zero rejection: ds = [48]
          have hall : ∀ b ∈ ds, b = 48 := decVal_zero_all48 ds h1 hz.2
          have hds1 : ds = [48] := by
            cases ds with
            | nil => simp at hz
            | cons a as =>
              have ha : a = 48 := hall a (by simp)
              cases as with
              | nil => simp [ha]
              | cons a2 as2 =>
                have := h2 (by simp)
                rw [List.headD_cons] at this
                exact absurd ha this
          rw [if_pos (by rw [hds1]; simp [decVal])]
          rw [hsplit, hds1]
          have hbad : octetOk (48 :: c :: (splitDots cs').headD []) = false := by
            simp [octetOk]
          rw [if_neg]
          intro hcon
          have h2' := hcon.2
          simp only [List.singleton_append, List.all_cons, hbad, Bool.false_and,
            Bool.and_eq_true] at h2'
          exact Bool.false_ne_true h2'
        · rw [if_neg hz]
          by_cases hov : 255 < decVal ds * 10 + (c - 48)
          · -- overflow rejection
            rw [if_pos hov, hsplit]
            have hbig : 255 < decVal (ds ++ c :: (splitDots cs').headD []) := by
              have heq : ds ++ c :: (splitDots cs').headD [] =
                  (ds ++ [c]) ++ (splitDots cs').headD [] := by simp
              rw [heq, decVal_append]
              have h10 : decVal (ds ++ [c]) = decVal ds * 10 + (c - 48) := by
                rw [decVal_append]
                simp [decVal]
              have hpow : 1 ≤ 10 ^ ((splitDots cs').headD []).length :=
                Nat.one_le_pow _ _ (by norm_num)
              have : decVal (ds ++ [c]) * 1 ≤
                  decVal (ds ++ [c]) * 10 ^ ((splitDots cs').headD []).length :=
                Nat.mul_le_mul_left _ hpow
              omega
            have hbad : octetOk (ds ++ c :: (splitDots cs').headD []) = false := by
              by_contra hcon
              rw [Bool.not_eq_false] at hcon
              have := (octetOk_elim _ hcon).2.2.1
              omega
            rw [if_neg]
            intro hcon
            have h2' := hcon.2
            simp only [List.all_cons, hbad, Bool.false_and, Bool.and_eq_true] at h2'
            exact Bool.false_ne_true h2'
          · -- accept digit, continue
            rw [if_neg hov]
            have h1' : (ds ++ [c]).all isDig = true := by
              simp [List.all_append, h1, hcd]
            have h2' : 1 < (ds ++ [c]).length → (ds ++ [c]).headD 0 ≠ 48 := by
              intro hl
              cases ds with
              | nil => simp at hl
              | cons a as =>
                simp only [List.cons_append, List.headD_cons]
                intro ha
                subst ha
                by_cases has : as.length = 0
                · have : as = [] := List.length_eq_zero.mp has
                  subst this
                  exact hz ⟨by simp, by simp [decVal]⟩
                · exact h2 (by simp; omega) rfl
            have h3' : decVal (ds ++ [c]) ≤ 255 := by
              rw [decVal_append]
              simp only [List.length_singleton, pow_one]
              have : decVal [c] = c - 48 := by simp [decVal]
              omega
            have hv : decVal (ds ++ [c]) = decVal ds * 10 + (c - 48) := by
              rw [decVal_append]; simp [decVal]
            have hl : (ds ++ [c]).length = ds.length + 1 := by simp
            have hIH := ih (ds ++ [c]) acc h1' h2' h3'
            rw [hv, hl] at hIH
            rw [hIH, List.append_assoc]
            simp
      · -- non-digit, non-dot byte: reject
        rw [if_neg hcd]
        have hsplit : splitDots (ds ++ c :: cs') =
            (ds ++ c :: (splitDots cs').headD []) :: (splitDots cs').tail := by
          rw [splitDots_append_nondots ds (c :: cs') hnd,
            splitDots_nondot_cons c cs' hc]
          simp
        rw [hsplit]
        have hbad : octetOk (ds ++ c :: (splitDots cs').headD []) = false := by
          by_contra hcon
          rw [Bool.not_eq_false] at hcon
          have := (octetOk_elim _ hcon).2.1
          rw [List.all_append] at this
          simp only [Bool.and_eq_true, List.all_cons] at this
          exact hcd this.2.1
        rw [if_neg]
        intro hcon
        have h2' := hcon.2
        simp only [List.all_cons, hbad, Bool.false_and, Bool.and_eq_true] at h2'
        exact Bool.false_ne_true h2'

/-- Spec success implies the total length lies in `[7, 15]`. -/
theorem ipv4Spec_length (bytes : List Nat) (h : ipv4Spec bytes ≠ none) :
    7 ≤ bytes.length ∧ bytes.length ≤ 15 := by
  simp only [ipv4Spec, ne_eq, ite_eq_right_iff, not_forall] at h
  obtain ⟨⟨hlen, hall⟩, _⟩ := h
  have hsum := splitDots_length_sum bytes
  have hbound : ∀ p ∈ splitDots bytes, 1 ≤ p.length ∧ p.length ≤ 3 := by
    intro p hp
    exact octetOk_length p (List.all_eq_true.mp hall p hp)
  have hgen : ∀ (l : List (List Nat)), (∀ p ∈ l, 1 ≤ p.length ∧ p.length ≤ 3) →
      l.length ≤ (l.map List.length).sum ∧
      (l.map List.length).sum ≤ 3 * l.length := by
    intro l
    induction l with
    | nil => simp
    | cons p ps ihl =>
      intro hb
      have hp := hb p (by simp)
      have hps := ihl (fun q hq => hb q (by simp [hq]))
      simp only [List.map_cons, List.sum_cons, List.length_cons]
      omega
  have := hgen (splitDots bytes) hbound
  rw [hlen] at this
  omega

/-- **`parse_ipv4_bytes` computes exactly the spec parse** (strict dotted
quad, no leading zeros, octets in `[0,255]`, length gate subsumed). -/
theorem parse_ipv4_bytes_eq_spec (bytes : List Nat) :
    parse_ipv4_bytes bytes = ipv4Spec bytes := by
  have hloop := pv4Loop_eq bytes [] [] (by simp) (by simp) (by simp [decVal])
  have h0 : decVal ([] : List Nat) = 0 := rfl
  rw [h0] at hloop
  simp only [List.length_nil, List.nil_append, Nat.add_zero] at hloop
  unfold parse_ipv4_bytes
  by_cases hgate : bytes.length < 7 ∨ 15 < bytes.length
  · rw [if_pos hgate]
    by_cases hspec : ipv4Spec bytes = none
    · exact hspec.symm
    · exact absurd (ipv4Spec_length bytes hspec) (by omega)
  · rw [if_neg hgate, hloop]
    unfold ipv4Spec
    rfl

/-! ## `readDigits` / `readNumber` lemmas -/

theorem readDigits_append (r : Nat) (l : List Nat) :
    (readDigits r l).1 ++ (readDigits r l).2 = l := by
  induction l with
  | nil => simp [readDigits]
  | cons b bs ih =>
    simp only [readDigits]
    split
    · simpa using ih
    · simp

theorem readDigits_all (r : Nat) (l : List Nat) :
    (readDigits r l).1.all (fun b => (digitVal r b).isSome) = true := by
  induction l with
  | nil => simp [readDigits]
  | cons b bs ih =>
    simp only [readDigits]
    split
    · simp only [List.all_cons, Bool.and_eq_true]
      exact ⟨by assumption, ih⟩
    · simp

theorem readDigits_stop (r : Nat) (l : List Nat) :
    (readDigits r l).2 = [] ∨
      (digitVal r ((readDigits r l).2.headD 0)).isSome = false := by
  induction l with
  | nil => simp [readDigits]
  | cons b bs ih =>
    simp only [readDigits]
    split
    · exact ih
    · right
      simp only [List.headD_cons]
      simpa using (by assumption : ¬(digitVal r b).isSome = true)

/-- `readDigits` of a maximal decomposition. -/
theorem readDigits_of_split (r : Nat) (d rest : List Nat)
    (hall : d.all (fun b => (digitVal r b).isSome) = true)
    (hstop : rest = [] ∨ (digitVal r (rest.headD 0)).isSome = false) :
    readDigits r (d ++ rest) = (d, rest) := by
  induction d with
  | nil =>
    rcases hstop with h | h
    · subst h; simp [readDigits]
    · cases rest with
      | nil => simp [readDigits]
      | cons b bs =>
        simp only [List.headD_cons] at h
        simp [readDigits, h]
  | cons a as ih =>
    simp only [List.all_cons, Bool.and_eq_true] at hall
    simp only [List.cons_append, readDigits, hall.1, if_pos]
    rw [show as.append rest = as ++ rest from rfl, ih hall.2]

/-- For radix 10, digits are exactly the decimal digits. -/
theorem digitVal10_isSome (b : Nat) : (digitVal 10 b).isSome = isDig b := by
  by_cases h : isDig b = true
  · simp [digitVal, h]
  · simp only [Bool.not_eq_true] at h
    simp [digitVal, h]

/-- For radix 10 digit runs, `radixVal` is `decVal`. -/
theorem radixVal10 (ds : List Nat) (h : ds.all isDig = true) :
    radixVal 10 ds = decVal ds := by
  have key : ∀ (l : List Nat) (a : Nat), l.all isDig = true →
      l.foldl (fun a b => a * 10 + (digitVal 10 b).getD 0) a =
      l.foldl (fun a b => a * 10 + (b - 48)) a := by
    intro l
    induction l with
    | nil => intro a _; rfl
    | cons x xs ih =>
      intro a hx
      simp only [List.all_cons, Bool.and_eq_true] at hx
      simp only [List.foldl_cons]
      rw [ih _ hx.2]
      have : (digitVal 10 x).getD 0 = x - 48 := by
        simp [digitVal, hx.1]
      rw [this]
  exact key ds 0 h

/-- Characterization of the decimal-octet `read_number`: it succeeds
exactly on a valid octet digit run. -/
theorem readNumber_dec (l : List Nat) :
    readNumber 10 3 255 false l =
      (if octetOk (readDigits 10 l).1
       then some (decVal (readDigits 10 l).1, (readDigits 10 l).2) else none) := by
  have hall : (readDigits 10 l).1.all isDig = true := by
    have := readDigits_all 10 l
    rw [List.all_eq_true] at this ⊢
    intro b hb
    have := this b hb
    rwa [digitVal10_isSome] at this
  rw [readNumber]
  by_cases h1 : (readDigits 10 l).1 = []
  · rw [if_pos h1, if_neg]
    rw [h1]
    simp [octetOk]
  · rw [if_neg h1]
    by_cases h2 : 3 < (readDigits 10 l).1.length
    · rw [if_pos h2, if_neg]
      intro hok
      have := (octetOk_length _ hok).2
      omega
    · rw [if_neg h2]
      rw [radixVal10 _ hall]
      by_cases h3 : 255 < decVal (readDigits 10 l).1
      · rw [if_pos h3, if_neg]
        intro hok
        have := (octetOk_elim _ hok).2.2.1
        omega
      · rw [if_neg h3]
        by_cases h4 : (!false ∧ (readDigits 10 l).1.headD 0 = 48 ∧
            1 < (readDigits 10 l).1.length)
        · rw [if_pos h4, if_neg]
          intro hok
          have := (octetOk_elim _ hok).2.2.2 h4.2.2
          exact this h4.2.1
        · rw [if_neg h4, if_pos]
          apply octetOk_intro _ h1 hall (by omega)
          intro hlen hhead
          exact h4 ⟨by simp, hhead, hlen⟩

theorem readNumber_dec_some (l : List Nat) (v : Nat) (r : List Nat)
    (h : readNumber 10 3 255 false l = some (v, r)) :
    octetOk (readDigits 10 l).1 = true ∧ v = decVal (readDigits 10 l).1 ∧
      r = (readDigits 10 l).2 := by
  rw [readNumber_dec] at h
  by_cases hok : octetOk (readDigits 10 l).1 = true
  · rw [if_pos hok] at h
    refine ⟨hok, ?_, ?_⟩
    · exact (Prod.mk.injEq _ _ _ _ ▸ Option.some.inj h).1.symm
    · exact (Prod.mk.injEq _ _ _ _ ▸ Option.some.inj h).2.symm
  · rw [if_neg hok] at h
    cases h

theorem all_isDig_digitVal (d : List Nat) (h : d.all isDig = true) :
    d.all (fun b => (digitVal 10 b).isSome) = true := by
  rw [List.all_eq_true] at h ⊢
  intro b hb
  rw [digitVal10_isSome]
  exact h b hb

/-- `read_number` applied to a valid-octet digit run followed by a
non-digit remainder. -/
theorem readNumber_dec_of (d rest : List Nat) (hok : octetOk d = true)
    (hstop : rest = [] ∨ isDig (rest.headD 0) = false) :
    readNumber 10 3 255 false (d ++ rest) = some (decVal d, rest) := by
  have hdig := (octetOk_elim d hok).2.1
  have hsplit : readDigits 10 (d ++ rest) = (d, rest) := by
    apply readDigits_of_split
    · exact all_isDig_digitVal d hdig
    · rcases hstop with h | h
      · exact Or.inl h
      · right
        rw [digitVal10_isSome]
        exact h
  rw [readNumber_dec, hsplit, if_pos hok]

theorem readSep_pos_nil {α : Type} (sep i : Nat) (hi : i ≠ 0)
    (inner : List Nat → Option (α × List Nat)) :
    readSep sep i inner [] = none := by
  unfold readSep
  rw [if_neg hi]

theorem readSep_pos_cons {α : Type} (sep i b : Nat) (bs : List Nat) (hi : i ≠ 0)
    (inner : List Nat → Option (α × List Nat)) :
    readSep sep i inner (b :: bs) = if b = sep then inner bs else none := by
  unfold readSep
  rw [if_neg hi]

/-- Full characterization of `read_ipv4_addr`: success exactly on four
dot-separated valid octets, greedily consumed, with a non-digit (or empty)
remainder. -/
theorem readIpv4Addr_some_iff (l : List Nat) (q rest : List Nat) :
    readIpv4Addr l = some (q, rest) ↔
      ∃ d1 d2 d3 d4 : List Nat,
        l = d1 ++ 46 :: (d2 ++ 46 :: (d3 ++ 46 :: (d4 ++ rest))) ∧
        octetOk d1 = true ∧ octetOk d2 = true ∧ octetOk d3 = true ∧
        octetOk d4 = true ∧
        (rest = [] ∨ isDig (rest.headD 0) = false) ∧
        q = [decVal d1, decVal d2, decVal d3, decVal d4] := by
  constructor
  · intro h
    unfold readIpv4Addr at h
    cases hr1 : readNumber 10 3 255 false l with
    | none => rw [hr1] at h; cases h
    | some p1 =>
      obtain ⟨v1, l1⟩ := p1
      rw [hr1] at h
      dsimp only at h
      obtain ⟨hok1, hv1, hl1⟩ := readNumber_dec_some l v1 l1 hr1
      cases l1 with
      | nil =>
        rw [readSep_pos_nil 46 1 one_ne_zero] at h
        cases h
      | cons b1 l1' =>
        rw [readSep_pos_cons 46 1 b1 l1' one_ne_zero] at h
        by_cases hb1 : b1 = 46
        · rw [if_pos hb1] at h
          subst hb1
          cases hr2 : readNumber 10 3 255 false l1' with
          | none => rw [hr2] at h; cases h
          | some p2 =>
            obtain ⟨v2, l2⟩ := p2
            rw [hr2] at h
            dsimp only at h
            obtain ⟨hok2, hv2, hl2⟩ := readNumber_dec_some l1' v2 l2 hr2
            cases l2 with
            | nil =>
              rw [readSep_pos_nil 46 2 two_ne_zero] at h
              cases h
            | cons b2 l2' =>
              rw [readSep_pos_cons 46 2 b2 l2' two_ne_zero] at h
              by_cases hb2 : b2 = 46
              · rw [if_pos hb2] at h
                subst hb2
                cases hr3 : readNumber 10 3 255 false l2' with
                | none => rw [hr3] at h; cases h
                | some p3 =>
                  obtain ⟨v3, l3⟩ := p3
                  rw [hr3] at h
                  dsimp only at h
                  obtain ⟨hok3, hv3, hl3⟩ := readNumber_dec_some l2' v3 l3 hr3
                  cases l3 with
                  | nil =>
                    rw [readSep_pos_nil 46 3 three_ne_zero] at h
                    cases h
                  | cons b3 l3' =>
                    rw [readSep_pos_cons 46 3 b3 l3' three_ne_zero] at h
                    by_cases hb3 : b3 = 46
                    · rw [if_pos hb3] at h
                      subst hb3
                      cases hr4 : readNumber 10 3 255 false l3' with
                      | none => rw [hr4] at h; cases h
                      | some p4 =>
                        obtain ⟨v4, l4⟩ := p4
                        rw [hr4] at h
                        dsimp only at h
                        obtain ⟨hok4, hv4, hl4⟩ := readNumber_dec_some l3' v4 l4 hr4
                        have hq : q = [v1, v2, v3, v4] ∧ rest = l4 := by
                          have := Option.some.inj h
                          exact ⟨((Prod.mk.injEq _ _ _ _).mp this).1.symm,
                            ((Prod.mk.injEq _ _ _ _).mp this).2.symm⟩
                        refine ⟨(readDigits 10 l).1, (readDigits 10 l1').1,
                          (readDigits 10 l2').1, (readDigits 10 l3').1,
                          ?_, hok1, hok2, hok3, hok4, ?_, ?_⟩
                        · have e1 := readDigits_append 10 l
                          have e2 := readDigits_append 10 l1'
                          have e3 := readDigits_append 10 l2'
                          have e4 := readDigits_append 10 l3'
                          rw [← hl1] at e1
                          rw [← hl2] at e2
                          rw [← hl3] at e3
                          rw [← hl4] at e4
                          rw [hq.2]
                          conv_lhs => rw [← e1, ← e2, ← e3, ← e4]
                        · rw [hq.2, hl4]
                          have := readDigits_stop 10 l3'
                          rcases this with hs | hs
                          · exact Or.inl hs
                          · right
                            rwa [digitVal10_isSome] at hs
                        · rw [hq.1, hv1, hv2, hv3, hv4]
                    · rw [if_neg hb3] at h
                      cases h
              · rw [if_neg hb2] at h
                cases h
        · rw [if_neg hb1] at h
          cases h
  · rintro ⟨d1, d2, d3, d4, hl, hok1, hok2, hok3, hok4, hstop, hq⟩
    subst hl hq
    have h1 : readNumber 10 3 255 false
        (d1 ++ 46 :: (d2 ++ 46 :: (d3 ++ 46 :: (d4 ++ rest)))) =
        some (decVal d1, 46 :: (d2 ++ 46 :: (d3 ++ 46 :: (d4 ++ rest)))) :=
      readNumber_dec_of d1 _ hok1 (Or.inr (by simp [isDig]))
    have h2 : readNumber 10 3 255 false (d2 ++ 46 :: (d3 ++ 46 :: (d4 ++ rest))) =
        some (decVal d2, 46 :: (d3 ++ 46 :: (d4 ++ rest))) :=
      readNumber_dec_of d2 _ hok2 (Or.inr (by simp [isDig]))
    have h3 : readNumber 10 3 255 false (d3 ++ 46 :: (d4 ++ rest)) =
        some (decVal d3, 46 :: (d4 ++ rest)) :=
      readNumber_dec_of d3 _ hok3 (Or.inr (by simp [isDig]))
    have h4 : readNumber 10 3 255 false (d4 ++ rest) =
        some (decVal d4, rest) :=
      readNumber_dec_of d4 rest hok4 hstop
    unfold readIpv4Addr
    rw [h1]
    dsimp only
    rw [readSep_pos_cons 46 1 46 _ one_ne_zero, if_pos rfl, h2]
    dsimp only
    rw [readSep_pos_cons 46 2 46 _ two_ne_zero, if_pos rfl, h3]
    dsimp only
    rw [readSep_pos_cons 46 3 46 _ three_ne_zero, if_pos rfl, h4]

/-! ## `rustParseIpv4` equals the spec parse -/

theorem splitDots_glue (d X : List Nat) (h : ∀ b ∈ d, b ≠ 46) :
    splitDots (d ++ 46 :: X) = d :: splitDots X := by
  rw [splitDots_append_nondots d _ h, splitDots_dot_cons]
  simp

theorem splitDots_nodots (d : List Nat) (h : ∀ b ∈ d, b ≠ 46) :
    splitDots d = [d] := by
  have := splitDots_append_nondots d [] h
  simpa [splitDots] using this

theorem joinDots_cons_cons (p q : List Nat) (ps : List (List Nat)) :
    joinDots (p :: q :: ps) = p ++ 46 :: joinDots (q :: ps) := rfl

theorem splitDots_join (l : List Nat) : joinDots (splitDots l) = l := by
  induction l with
  | nil => rfl
  | cons b bs ih =>
    by_cases hb : b = 46
    · subst hb
      rw [splitDots_dot_cons]
      cases h : splitDots bs with
      | nil => exact absurd h (splitDots_ne_nil bs)
      | cons p ps =>
        rw [h] at ih
        rw [joinDots_cons_cons, ih]
        rfl
    · rw [splitDots_nondot_cons b bs hb]
      cases h : splitDots bs with
      | nil => exact absurd h (splitDots_ne_nil bs)
      | cons p ps =>
        rw [h] at ih
        simp only [List.headD_cons, List.tail_cons]
        cases ps with
        | nil =>
          simp only [joinDots] at ih ⊢
          rw [ih]
        | cons q qs =>
          rw [joinDots_cons_cons] at ih ⊢
          rw [List.cons_append, ih]

theorem rustParseIpv4_some_inv (l q : List Nat) (h : rustParseIpv4 l = some q) :
    readIpv4Addr l = some (q, []) := by
  unfold rustParseIpv4 at h
  cases hr : readIpv4Addr l with
  | none => rw [hr] at h; cases h
  | some p =>
    obtain ⟨q', rest⟩ := p
    rw [hr] at h
    cases rest with
    | nil =>
      dsimp only at h
      rw [Option.some.inj h]
    | cons a r =>
      dsimp only at h
      cases h

/-- **The Rust standard library IPv4 parse equals the spec parse.** -/
theorem rustParseIpv4_eq_spec (l : List Nat) : rustParseIpv4 l = ipv4Spec l := by
  cases hs : ipv4Spec l with
  | some q =>
    unfold ipv4Spec at hs
    by_cases hc : (splitDots l).length = 4 ∧ (splitDots l).all octetOk = true
    · rw [if_pos hc] at hs
      obtain ⟨hlen, hall⟩ := hc
      have hjoin := splitDots_join l
      rcases hsp : splitDots l with _ | ⟨p1, _ | ⟨p2, _ | ⟨p3, _ | ⟨p4, _ | ⟨p5, ps⟩⟩⟩⟩⟩ <;>
        rw [hsp] at hlen <;> try simp at hlen
      rw [hsp] at hjoin hall hs
      simp only [List.all_cons, List.all_nil, Bool.and_eq_true, Bool.and_true] at hall
      obtain ⟨hok1, hok2, hok3, hok4⟩ := hall
      have hl : l = p1 ++ 46 :: (p2 ++ 46 :: (p3 ++ 46 :: (p4 ++ []))) := by
        rw [List.append_nil]
        rw [← hjoin]
        rfl
      have hread : readIpv4Addr l = some ([decVal p1, decVal p2, decVal p3, decVal p4], []) := by
        apply (readIpv4Addr_some_iff l _ []).mpr
        exact ⟨p1, p2, p3, p4, hl, hok1, hok2, hok3, hok4, Or.inl rfl, rfl⟩
      unfold rustParseIpv4
      rw [hread]
      dsimp only
      rw [← Option.some.inj hs]
      rfl
    · rw [if_neg hc] at hs
      cases hs
  | none =>
    cases hr : rustParseIpv4 l with
    | none => rfl
    | some q =>
      have hinv := rustParseIpv4_some_inv l q hr
      obtain ⟨d1, d2, d3, d4, hl, hok1, hok2, hok3, hok4, _, hq⟩ :=
        (readIpv4Addr_some_iff l q []).mp hinv
      have hnd1 := all_dig_no_dot d1 (octetOk_elim d1 hok1).2.1
      have hnd2 := all_dig_no_dot d2 (octetOk_elim d2 hok2).2.1
      have hnd3 := all_dig_no_dot d3 (octetOk_elim d3 hok3).2.1
      have hnd4 := all_dig_no_dot d4 (octetOk_elim d4 hok4).2.1
      have hds : splitDots l = [d1, d2, d3, d4] := by
        rw [hl, List.append_nil, splitDots_glue d1 _ hnd1, splitDots_glue d2 _ hnd2,
          splitDots_glue d3 _ hnd3, splitDots_nodots d4 hnd4]
      unfold ipv4Spec at hs
      rw [hds] at hs
      rw [if_pos] at hs
      · cases hs
      · refine ⟨rfl, ?_⟩
        simp [hok1, hok2, hok3, hok4]

theorem rustParseIpAddr_inl (l q : List Nat) :
    rustParseIpAddr l = some (.inl q) ↔ rustParseIpv4 l = some q := by
  unfold rustParseIpAddr rustParseIpv4
  cases hr : readIpv4Addr l with
  | none =>
    cases hr6 : readIpv6Addr l with
    | none => simp
    | some p =>
      obtain ⟨g, rest⟩ := p
      cases rest with
      | nil => simp
      | cons a r => simp
  | some p =>
    obtain ⟨q', rest⟩ := p
    cases rest with
    | nil => simp
    | cons a r => simp

theorem rustParseIpAddr_not_inl (l : List Nat)
    (h : ∀ q : List Nat, rustParseIpAddr l ≠ some (.inl q)) :
    rustParseIpv4 l = none := by
  cases hr : rustParseIpv4 l with
  | none => rfl
  | some q => exact absurd ((rustParseIpAddr_inl l q).mpr hr) (h q)

/-- Every byte of a spec-valid IPv4 string is a digit or a dot. -/
theorem splitDots_all_mem (l : List Nat)
    (h : (splitDots l).all (fun p => p.all isDig) = true) :
    ∀ b ∈ l, isDig b = true ∨ b = 46 := by
  induction l with
  | nil => simp
  | cons c cs ih =>
    by_cases hc : c = 46
    · subst hc
      rw [splitDots_dot_cons] at h
      simp only [List.all_cons, Bool.and_eq_true] at h
      intro b hb
      rcases List.mem_cons.mp hb with rfl | hb
      · exact Or.inr rfl
      · exact ih h.2 b hb
    · rw [splitDots_nondot_cons c cs hc] at h
      cases hsc : splitDots cs with
      | nil => exact absurd hsc (splitDots_ne_nil cs)
      | cons p ps =>
        rw [hsc] at h
        simp only [List.headD_cons, List.tail_cons, List.all_cons,
          Bool.and_eq_true] at h
        intro b hb
        rcases List.mem_cons.mp hb with rfl | hb
        · exact Or.inl h.1.1
        · apply ih ?_ b hb
          rw [hsc]
          simp only [List.all_cons, Bool.and_eq_true]
          exact ⟨h.1.2, h.2⟩

theorem ipv4Spec_ascii (l : List Nat) (q : List Nat) (h : ipv4Spec l = some q) :
    ∀ b ∈ l, b ≤ 127 := by
  unfold ipv4Spec at h
  by_cases hc : (splitDots l).length = 4 ∧ (splitDots l).all octetOk = true
  · have hall : (splitDots l).all (fun p => p.all isDig) = true := by
      rw [List.all_eq_true]
      intro p hp
      exact (octetOk_elim p (List.all_eq_true.mp hc.2 p hp)).2.1
    intro b hb
    rcases splitDots_all_mem l hall b hb with hd | hd
    · simp only [isDig, Bool.and_eq_true, decide_eq_true_eq] at hd
      omega
    · omega
  · rw [if_neg hc] at h
    cases h

theorem utf8_foldl_ascii (l : List Nat) (h : ∀ b ∈ l, b ≤ 127) :
    l.foldl (fun st b => st.bind (fun s => utf8Step s b))
      (some ((0 : Nat), (128 : Nat), (191 : Nat))) = some (0, 128, 191) := by
  induction l with
  | nil => rfl
  | cons b bs ih =>
    rw [List.foldl_cons]
    have hb : b ≤ 127 := h b (by simp)
    have hstep : (some ((0 : Nat), (128 : Nat), (191 : Nat))).bind
        (fun s => utf8Step s b) = some (0, 128, 191) := by
      simp [utf8Step, utf8Lead, hb]
    rw [hstep]
    exact ih (fun x hx => h x (by simp [hx]))

theorem utf8Valid_ascii (l : List Nat) (h : ∀ b ∈ l, b ≤ 127) :
    utf8Valid l = true := by
  unfold utf8Valid
  rw [utf8_foldl_ascii l h]

theorem parse_some_facts (bytes q : List Nat) (hq : parse_ipv4_bytes bytes = some q) :
    ipv4Spec bytes = some q ∧ utf8Valid bytes = true ∧
      ¬(bytes.length < 7 ∨ 15 < bytes.length) ∧
      rustParseIpAddr bytes = some (.inl q) := by
  have hspec : ipv4Spec bytes = some q := by rw [← parse_ipv4_bytes_eq_spec]; exact hq
  have hascii := ipv4Spec_ascii bytes q hspec
  have hlen := ipv4Spec_length bytes (by rw [hspec]; simp)
  refine ⟨hspec, utf8Valid_ascii bytes hascii, by omega, ?_⟩
  apply (rustParseIpAddr_inl bytes q).mpr
  rw [rustParseIpv4_eq_spec]
  exact hspec

theorem rustParseIpv4_eq_parse (bytes : List Nat) :
    rustParseIpv4 bytes = parse_ipv4_bytes bytes := by
  rw [rustParseIpv4_eq_spec, parse_ipv4_bytes_eq_spec]

/-- **C10**: the main crate's IPv4 validator (extractor.rs dispatch with
fast path) accepts exactly the same byte slices as the ip-extract crate's
`validate_ipv4` built on `parse_ipv4_bytes`, for every setting of the
category flags. -/
theorem C10_v4_validators_equivalent :
    ∀ (bytes : List Nat) (p l b r : Bool),
      extractorValidatorIPv4 bytes p l b r = validate_ipv4 bytes p l b := by
  intro bytes p l b r
  unfold extractorValidatorIPv4
  by_cases hfast : (p && l && b && !r) = true
  · rw [if_pos hfast]
    simp only [Bool.and_eq_true, Bool.not_eq_true'] at hfast
    obtain ⟨⟨⟨hp, hl⟩, hb⟩, hr⟩ := hfast
    subst hp hl hb hr
    unfold validate_ipv4
    cases hq : parse_ipv4_bytes bytes with
    | none =>
      rw [rustParseIpv4_eq_parse, hq]
      simp
    | some q =>
      obtain ⟨_, hu, _, _⟩ := parse_some_facts bytes q hq
      rw [rustParseIpv4_eq_parse, hq, hu]
      simp
  · rw [if_neg hfast]
    unfold extractorValidate_ipv4 validate_ipv4
    cases hq : parse_ipv4_bytes bytes with
    | none =>
      dsimp only
      by_cases hlen : bytes.length < 7 ∨ 15 < bytes.length
      · rw [if_pos hlen]
      · rw [if_neg hlen]
        by_cases hu : utf8Valid bytes = true
        · rw [hu, if_neg (by simp)]
          cases hr4 : rustParseIpAddr bytes with
          | none => rfl
          | some v =>
            cases v with
            | inl q =>
              exfalso
              have := (rustParseIpAddr_inl bytes q).mp hr4
              rw [rustParseIpv4_eq_parse, hq] at this
              cases this
            | inr g => rfl
        · rw [if_pos (by simp only [Bool.not_eq_true] at hu; rw [hu]; rfl)]
    | some q =>
      obtain ⟨_, hu, hlen, hr4⟩ := parse_some_facts bytes q hq
      rw [if_neg hlen, hu, if_neg (by simp), hr4]
      dsimp only
      cases p <;> cases l <;> cases b <;> simp

/-- **C3**: `parse_ipv4_bytes` accepts exactly the strings made of four
dot-separated decimal octets in `[0,255]` with no leading zeros (total
length then necessarily in `[7,15]`); consequently no validator-accepted
IPv4 text violates these rules, and `192.168.01.1`, `256.1.1.1`, `1.2.3`
are all rejected. -/
theorem C3_strict_ipv4_parse :
    (∀ bytes : List Nat, (parse_ipv4_bytes bytes).isSome = true ↔
      ((splitDots bytes).length = 4 ∧ (splitDots bytes).all octetOk = true ∧
        7 ≤ bytes.length ∧ bytes.length ≤ 15)) ∧
    (∀ bytes p l b, validate_ipv4 bytes p l b = true →
      (splitDots bytes).length = 4 ∧ (splitDots bytes).all octetOk = true) ∧
    parse_ipv4_bytes (strBytes "192.168.01.1") = none ∧
    parse_ipv4_bytes (strBytes "256.1.1.1") = none ∧
    parse_ipv4_bytes (strBytes "1.2.3") = none := by
  have hmain : ∀ bytes : List Nat, (parse_ipv4_bytes bytes).isSome = true ↔
      ((splitDots bytes).length = 4 ∧ (splitDots bytes).all octetOk = true ∧
        7 ≤ bytes.length ∧ bytes.length ≤ 15) := by
    intro bytes
    rw [parse_ipv4_bytes_eq_spec]
    constructor
    · intro h
      have hlen := ipv4Spec_length bytes (by intro hc; rw [hc] at h; cases h)
      unfold ipv4Spec at h
      by_cases hc : (splitDots bytes).length = 4 ∧ (splitDots bytes).all octetOk = true
      · exact ⟨hc.1, hc.2, hlen.1, hlen.2⟩
      · rw [if_neg hc] at h
        cases h
    · intro h
      unfold ipv4Spec
      rw [if_pos ⟨h.1, h.2.1⟩]
      rfl
  refine ⟨hmain, ?_, by decide, by decide, by decide⟩
  intro bytes p l b h
  unfold validate_ipv4 at h
  cases hq : parse_ipv4_bytes bytes with
  | none => rw [hq] at h; cases h
  | some q =>
    have := (hmain bytes).mp (by rw [hq]; rfl)
    exact ⟨this.1, this.2.1⟩

/-- Witness for C3 at a concrete accepted and concrete rejected inputs. -/
theorem C3_strict_ipv4_parse_witness :
    (parse_ipv4_bytes (strBytes "8.8.8.8")).isSome = true ∧
      ((splitDots (strBytes "8.8.8.8")).length = 4 ∧
        (splitDots (strBytes "8.8.8.8")).all octetOk = true) := by
  refine ⟨by decide, ?_⟩
  exact (C3_strict_ipv4_parse.2.1 (strBytes "8.8.8.8") true true true (by decide))

/-- **C7 counterexample**: the main crate's IPv6 validator accepts the
unique-local address `fc00::1` even with `include_private` disabled, so
the claim "an IPv6 address of every disabled category is rejected by the
validator" fails on `src/extractor.rs`. -/
theorem C7_counterexample_ula_accepted :
    extractorValidate_ipv6 (strBytes "fc00::1") false true = true := by decide

/-- **C7 (amended)**: the ip-extract crate's `validate_ipv6` does reject
every parsed address of a disabled category: unique-local and link-local
under `include_private`, the loopback `::1` under `include_loopback`. -/
theorem C7_ipextract_v6_filters (bytes g : List Nat)
    (hparse : rustParseIpAddr bytes = some (.inr g)) :
    (∀ l : Bool, is_unique_local g = true ∨ ipv6IsUnicastLinkLocal g = true →
      validate_ipv6 bytes false l = false) ∧
    (∀ p : Bool, ipv6IsLoopback g = true → validate_ipv6 bytes p false = false) := by
  constructor
  · intro l hcat
    unfold validate_ipv6
    by_cases hlen : bytes.length < 2
    · rw [if_pos hlen]
    · rw [if_neg hlen, hparse]
      dsimp only
      rw [if_pos]
      rcases hcat with h | h <;> simp [h]
  · intro p hloop
    unfold validate_ipv6
    by_cases hlen : bytes.length < 2
    · rw [if_pos hlen]
    · rw [if_neg hlen, hparse]
      dsimp only
      by_cases hfirst : (!p && (ipv6IsUnicastLinkLocal g || is_unique_local g)) = true
      · rw [if_pos hfirst]
      · rw [if_neg hfirst, if_pos]
        simp [hloop]

/-- Witness for C7's amended theorem at `fc00::1` and `::1`. -/
theorem C7_ipextract_v6_filters_witness :
    validate_ipv6 (strBytes "fc00::1") false true = false ∧
      validate_ipv6 (strBytes "::1") true false = false := by
  constructor
  · exact (C7_ipextract_v6_filters (strBytes "fc00::1")
      [64512, 0, 0, 0, 0, 0, 0, 1] (by decide)).1 true (Or.inl (by decide))
  · exact (C7_ipextract_v6_filters (strBytes "::1")
      [0, 0, 0, 0, 0, 0, 0, 1] (by decide)).2 true (by decide)

/-! ## Template compile: error exactly on an empty field reference -/

theorem breakAtClose_length (l : List Nat) : ∀ name after : List Nat,
    breakAtClose l = some (name, after) →
    l.length = name.length + 1 + after.length := by
  induction l with
  | nil => intro name after h; cases h
  | cons b bs ih =>
    intro name after h
    rw [breakAtClose] at h
    by_cases hb : b = 125
    · rw [if_pos hb] at h
      obtain ⟨h1, h2⟩ := Prod.mk.injEq _ _ _ _ ▸ Option.some.inj h
      rw [← h1, ← h2]
      simp only [List.length_cons, List.length_nil]
      omega
    · rw [if_neg hb] at h
      cases hbc : breakAtClose bs with
      | none => rw [hbc] at h; cases h
      | some p =>
        obtain ⟨n1, a1⟩ := p
        rw [hbc] at h
        dsimp only [Option.map] at h
        obtain ⟨h1, h2⟩ := Prod.mk.injEq _ _ _ _ ▸ Option.some.inj h
        have hrec := ih n1 a1 hbc
        rw [← h1, ← h2]
        simp only [List.length_cons]
        omega

theorem compileGo_cons (fuel b : Nat) (rest lit : List Nat) (parts : List TPart)
    (size : Nat) :
    compileGo (fuel + 1) (b :: rest) lit parts size =
      (if b = 123 then
        if rest.head? = some 123 then compileGo fuel rest.tail (lit ++ [123]) parts size
        else
          match breakAtClose rest with
          | some (name, after) =>
            if name.isEmpty then none
            else compileGo fuel after []
              (flushParts lit parts ++ [TPart.field name]) (flushSize lit size + 16)
          | none => compileGo fuel rest (lit ++ [123]) parts size
      else if b = 125 ∧ rest.head? = some 125 then
        compileGo fuel rest.tail (lit ++ [125]) parts size
      else compileGo fuel rest (lit ++ [b]) parts size) := rfl

theorem hasEmptyRefGo_cons (fuel b : Nat) (rest : List Nat) :
    hasEmptyRefGo (fuel + 1) (b :: rest) =
      (if b = 123 then
        if rest.head? = some 123 then hasEmptyRefGo fuel rest.tail
        else
          match breakAtClose rest with
          | some (name, after) => name.isEmpty || hasEmptyRefGo fuel after
          | none => hasEmptyRefGo fuel rest
      else if b = 125 ∧ rest.head? = some 125 then hasEmptyRefGo fuel rest.tail
      else hasEmptyRefGo fuel rest) := rfl

/-- With enough fuel, the compile succeeds exactly when the scan finds no
empty field reference. -/
theorem compileGo_isSome : ∀ (fuel : Nat) (l lit : List Nat) (parts : List TPart)
    (size : Nat), l.length ≤ fuel →
    (compileGo fuel l lit parts size).isSome = !(hasEmptyRefGo fuel l) := by
  intro fuel
  induction fuel with
  | zero =>
    intro l lit parts size hl
    have hnil : l = [] := List.length_eq_zero.mp (Nat.le_zero.mp hl)
    subst hnil
    rfl
  | succ fuel ih =>
    intro l lit parts size hl
    cases l with
    | nil => rfl
    | cons b rest =>
      rw [compileGo_cons, hasEmptyRefGo_cons]
      simp only [List.length_cons] at hl
      have hrest : rest.length ≤ fuel := by omega
      have htail : rest.tail.length ≤ fuel := by
        have := List.length_tail rest
        omega
      by_cases hb : b = 123
      · rw [if_pos hb, if_pos hb]
        by_cases hh : rest.head? = some 123
        · rw [if_pos hh, if_pos hh]
          exact ih _ _ _ _ htail
        · rw [if_neg hh, if_neg hh]
          cases hbc : breakAtClose rest with
          | none => exact ih _ _ _ _ hrest
          | some p =>
            obtain ⟨name, after⟩ := p
            dsimp only
            have hafter : after.length ≤ fuel := by
              have := breakAtClose_length rest name after hbc
              omega
            by_cases hname : name.isEmpty = true
            · simp [hname]
            · simp only [Bool.not_eq_true] at hname
              simp only [hname, Bool.false_or, if_neg (by simp [hname] : ¬ (name.isEmpty = true))]
              exact ih _ _ _ _ hafter
      · rw [if_neg hb, if_neg hb]
        by_cases h2 : b = 125 ∧ rest.head? = some 125
        · rw [if_pos h2, if_pos h2]
          exact ih _ _ _ _ htail
        · rw [if_neg h2, if_neg h2]
          exact ih _ _ _ _ hrest

/-- **C9.** Template compilation returns an error if and only if the format
string contains an empty field reference (a `\x7b` not part of a
`\x7b\x7b` escape whose matching `\x7d` encloses an empty name); `\x7b\x7b`
and `\x7d\x7d` produce literal braces, and an unclosed `\x7b` is treated as
a literal character. -/
theorem C9_template_compile_error_iff :
    (∀ l : List Nat, (templateCompile l).isSome = !(hasEmptyRef l))
    ∧ templateCompile (strBytes "\x7b\x7d") = none
    ∧ templateCompile (strBytes "\x7b\x7bx\x7d\x7d") =
        some ([TPart.lit (strBytes "\x7bx\x7d")], 3)
    ∧ templateCompile (strBytes "a\x7bb") = some ([TPart.lit (strBytes "a\x7bb")], 3) := by
  exact ⟨fun l => compileGo_isSome l.length l [] [] 0 (le_refl _),
    by decide, by decide, by decide⟩

/-! ## C2: double substitution in the provider template path -/

/-- **C2.** The spec requires field values to be written verbatim, never
rescanned for brace-enclosed references. `apply_template` in `src/mmdb.rs`
violates this: replacing the placeholders sequentially over the running
string, a field value that contains the literal `\x7bip\x7d` is itself
expanded when `\x7bip\x7d` is substituted later, while the single-pass
`Template::render` of `src/template.rs` keeps it verbatim. -/
theorem C2_provider_double_substitution :
    applyTemplate (strBytes "<\x7bip\x7d|AS\x7basnnum\x7d>")
        [(strBytes "asnnum", strBytes "\x7bip\x7d"), (strBytes "ip", strBytes "1.2.3.4")]
      = strBytes "<1.2.3.4|AS1.2.3.4>"
    ∧ (templateCompile (strBytes "<\x7bip\x7d|AS\x7basnnum\x7d>")).map
        (fun t => renderParts t.1
          (lookupAssoc [(strBytes "asnnum", strBytes "\x7bip\x7d"),
            (strBytes "ip", strBytes "1.2.3.4")]))
      = some (strBytes "<1.2.3.4|AS\x7bip\x7d>")
    ∧ strBytes "<1.2.3.4|AS1.2.3.4>" ≠ strBytes "<1.2.3.4|AS\x7bip\x7d>" := by
  exact ⟨by decide, by decide, by decide⟩

/-! ## C4: space replacement applies to the whole rendered string -/

theorem replaceSpaces_no_space (l : List Nat) :
    (replaceSpaces l).all (fun b => !(b == 32)) = true := by
  induction l with
  | nil => rfl
  | cons b bs ih =>
    simp only [replaceSpaces, List.map_cons, List.all_cons, Bool.and_eq_true] at ih ⊢
    refine ⟨?_, ih⟩
    by_cases hb : b = 32
    · simp [hb]
    · simp [hb]

/-- Counterexample to C4 as stated: a space in a literal template segment
is also replaced by an underscore, because `.replace(' ', "_")` is applied
to the whole rendered string (`src/mmdb.rs` line 377). -/
theorem C4_counterexample_literal_space :
    mmdbLookupRender (strBytes "\x7bip\x7d x") [(strBytes "ip", strBytes "a")]
        = strBytes "a_x"
    ∧ strBytes "a_x" ≠ strBytes "a x" := by
  exact ⟨by decide, by decide⟩

/-- **C4 (amended).** Every space in the provider lookup output — whether
contributed by a substituted field value or by a literal template
segment — is replaced by an underscore; in particular substituted values
have their spaces replaced. -/
theorem C4_provider_spaces_all_replaced :
    (∀ template values,
      (mmdbLookupRender template values).all (fun b => !(b == 32)) = true)
    ∧ mmdbLookupRender (strBytes "\x7bcity\x7d")
        [(strBytes "city", strBytes "Los Angeles")] = strBytes "Los_Angeles"
    ∧ mmdbLookupRender (strBytes "\x7bip\x7d x") [(strBytes "ip", strBytes "a")]
        = strBytes "a_x" := by
  exact ⟨fun _ _ => replaceSpaces_no_space _, by decide, by decide⟩

/-! ## C8: the only_routable pass-through and the cache -/

/-- Counterexample to C8 as stated: the pass-through result is inserted
into the cache (`src/geoip.rs` lines 189-193). -/
theorem C8_counterexample_passthrough_cached :
    (geoipLookup true (fun _ => false) (fun _ => none) (fun c => ([], c))
        (strBytes "1.2.3.4") []).2 = [(strBytes "1.2.3.4", strBytes "1.2.3.4")]
    ∧ [(strBytes "1.2.3.4", strBytes "1.2.3.4")] ≠ ([] : List (List Nat × List Nat)) := by
  exact ⟨by decide, by decide⟩

/-- **C8 (amended).** With `only_routable` enabled, on a cache miss for a
string that parses as an IP address and fails `has_asn`, the match is
emitted unchanged (no template rendering) and the pass-through result `s`
itself is inserted into the cache. -/
theorem C8_passthrough_unchanged_and_cached
    (hasAsn : List Nat → Bool) (provLookup : List Nat → Option (List Nat))
    (legacy : List (List Nat × List Nat) → List Nat × List (List Nat × List Nat))
    (s : List Nat) (cache : List (List Nat × List Nat))
    (hmiss : cacheGet cache s = none)
    (hparse : (rustParseIpAddr s).isSome = true)
    (hasn : hasAsn s = false) :
    geoipLookup true hasAsn provLookup legacy s cache = (s, cacheInsert cache s s) := by
  unfold geoipLookup
  rw [hmiss]
  simp [hparse, hasn]

/-- Witness for C8's amended theorem at `1.2.3.4` with an empty cache. -/
theorem C8_passthrough_witness :
    geoipLookup true (fun _ => false) (fun _ => none) (fun c => ([], c))
        (strBytes "1.2.3.4") []
      = (strBytes "1.2.3.4", cacheInsert [] (strBytes "1.2.3.4") (strBytes "1.2.3.4")) :=
  C8_passthrough_unchanged_and_cached (fun _ => false) (fun _ => none)
    (fun c => ([], c)) (strBytes "1.2.3.4") [] rfl (by decide) rfl

/-- **C5.** The right-boundary check rejects an IPv4 candidate exactly
when the next byte is a digit or a dot followed by a digit, and an IPv6
candidate exactly when the next byte is an IP character; consequently
`1.2.3.4` is matched when followed by a space, a comma, a trailing dot or
a closing parenthesis, and nothing is matched in `1.2.3.4.5`. -/
theorem C5_right_boundary :
    (∀ (h : List Nat) (e : Nat) (prv lo br : Bool),
      rightBoundaryOk h (Validator.v4 prv lo br) e = false ↔
        (e < h.length ∧ (isDig (h.getD e 0) = true ∨
          (h.getD e 0 = 46 ∧ e + 1 < h.length ∧ isDig (h.getD (e + 1) 0) = true))))
    ∧ (∀ (h : List Nat) (e : Nat) (prv lo : Bool),
      rightBoundaryOk h (Validator.v6 prv lo) e = false ↔
        (e < h.length ∧ is_ip_char (h.getD e 0) = true))
    ∧ findIter (strBytes "1.2.3.4 ") dfa5a vals5 = [(0, 7)]
    ∧ findIter (strBytes "1.2.3.4,") dfa5a vals5 = [(0, 7)]
    ∧ findIter (strBytes "1.2.3.4.") dfa5a vals5 = [(0, 7)]
    ∧ findIter (strBytes "(1.2.3.4)") dfa5b vals5 = [(1, 8)]
    ∧ findIter (strBytes "1.2.3.4.5") dfa5c vals5 = [] := by
  refine ⟨?_, ?_, by decide, by decide, by decide, by decide, by decide⟩
  · intro h e prv lo br
    unfold rightBoundaryOk
    by_cases hlt : e < h.length
    · rw [if_pos hlt]
      dsimp only
      rw [Bool.not_eq_false']
      simp only [Bool.or_eq_true, Bool.and_eq_true, beq_iff_eq, decide_eq_true_eq]
      constructor
      · intro hc
        refine ⟨hlt, ?_⟩
        rcases hc with h1 | ⟨⟨h2, h3⟩, h4⟩
        · exact Or.inl h1
        · exact Or.inr ⟨h2, h3, h4⟩
      · intro hc
        rcases hc.2 with h1 | ⟨h2, h3, h4⟩
        · exact Or.inl h1
        · exact Or.inr ⟨⟨h2, h3⟩, h4⟩
    · rw [if_neg hlt]
      simp only [Bool.true_eq_false, false_iff]
      intro hc
      exact hlt hc.1
  · intro h e prv lo
    unfold rightBoundaryOk
    by_cases hlt : e < h.length
    · rw [if_pos hlt]
      dsimp only
      rw [Bool.not_eq_false']
      exact ⟨fun hc => ⟨hlt, hc⟩, fun hc => hc.2⟩
    · rw [if_neg hlt]
      simp only [Bool.true_eq_false, false_iff]
      intro hc
      exact hlt hc.1

theorem digitVal16_isSome (b : Nat) : (digitVal 16 b).isSome = isHexDig b := by
  unfold digitVal isHexDig
  by_cases h1 : isDig b = true
  · simp [h1]
  · simp only [Bool.not_eq_true] at h1
    rw [if_neg (by simp [h1])]
    by_cases h2 : 97 ≤ b ∧ b ≤ 102
    · rw [if_pos ⟨rfl, h2.1, h2.2⟩]
      simp [h1, h2.1, h2.2]
    · rw [if_neg (by intro hc; exact h2 ⟨hc.2.1, hc.2.2⟩)]
      by_cases h3 : 65 ≤ b ∧ b ≤ 70
      · rw [if_pos ⟨rfl, h3.1, h3.2⟩]
        simp [h1, h3.1, h3.2]
      · rw [if_neg (by intro hc; exact h3 ⟨hc.2.1, hc.2.2⟩)]
        simp only [Option.isSome_none, h1, Bool.false_or]
        symm
        have e1 : (decide (97 ≤ b) && decide (b ≤ 102)) = false := by
          simp only [Bool.and_eq_false_iff, decide_eq_false_iff_not]
          omega
        have e2 : (decide (65 ≤ b) && decide (b ≤ 70)) = false := by
          simp only [Bool.and_eq_false_iff, decide_eq_false_iff_not]
          omega
        rw [e1, e2]
        rfl

theorem isHexColon_ip (b : Nat) (h : isHexColon b = true) : is_ip_char b = true := by
  unfold isHexColon at h
  unfold is_ip_char
  rcases Bool.or_eq_true _ _ ▸ h with hx | hx <;> simp [hx]

theorem isHexColon_ne_dot (b : Nat) (h : isHexColon b = true) : b ≠ 46 := by
  intro hb
  subst hb
  unfold isHexColon isHexDig isDig at h
  simp at h

theorem digdot_ip (b : Nat) (h : isDig b = true ∨ b = 46) : is_ip_char b = true := by
  unfold is_ip_char isHexDig
  rcases h with hx | hx <;> simp [hx]

/-! ## Slice and index helpers -/

theorem get?_getD (l : List Nat) (i : Nat) (h : i < l.length) :
    l.get? i = some (l.getD i 0) := by
  rw [List.getD_eq_get?]
  cases hx : l.get? i with
  | none => exact absurd (List.get?_eq_none.mp hx) (by omega)
  | some a => rfl

theorem sliceList_length (h : List Nat) (s e : Nat) (hse : s ≤ e)
    (hel : e ≤ h.length) : (sliceList h s e).length = e - s := by
  unfold sliceList
  rw [List.length_take, List.length_drop]
  omega

theorem sliceList_get? (h : List Nat) (s e j : Nat) (h1 : s ≤ j) (h2 : j < e) :
    (sliceList h s e).get? (j - s) = h.get? j := by
  unfold sliceList
  rw [List.get?_take (by omega : j - s < e - s), List.get?_drop]
  congr 1
  omega

/-! ## Backscan facts -/

theorem backscanStart_lt (h : List Nat) (e : Nat) (he : 0 < e) :
    backscanStart h e < e := by
  unfold backscanStart
  cases hf : (List.range' (e - 40) (e - (e - 40))).reverse.find?
      (fun i => i == 0 || !(is_ip_char (h.getD (i - 1) 0))) with
  | none =>
    simp only [Option.getD_none]
    omega
  | some i =>
    simp only [Option.getD_some]
    have hmem := List.find?_mem hf
    rw [List.mem_reverse] at hmem
    have := List.mem_range'_1.mp hmem
    omega

theorem backscan_boundary_or_cap (h : List Nat) (e : Nat) :
    (backscanStart h e = 0 ∨
      is_ip_char (h.getD (backscanStart h e - 1) 0) = false) ∨
    e - backscanStart h e = 40 := by
  unfold backscanStart
  cases hf : (List.range' (e - 40) (e - (e - 40))).reverse.find?
      (fun i => i == 0 || !(is_ip_char (h.getD (i - 1) 0))) with
  | none =>
    simp only [Option.getD_none]
    by_cases h40 : 40 < e
    · right; omega
    · left; left
      by_cases he : e = 0
      · omega
      · exfalso
        have hmem : (0 : Nat) ∈ (List.range' (e - 40) (e - (e - 40))).reverse := by
          rw [List.mem_reverse]
          apply List.mem_range'_1.mpr
          omega
        have := List.find?_eq_none.mp hf 0 hmem
        simp at this
  | some i =>
    simp only [Option.getD_some]
    left
    have hp := List.find?_some hf
    rcases Bool.or_eq_true _ _ ▸ hp with hx | hx
    · left; exact eq_of_beq hx
    · right
      rwa [Bool.not_eq_true'] at hx

/-! ## Consumed-chunk lemmas for the IPv6 parse -/

/-- A successful hex-group read consumes a nonempty run of hex digits. -/
theorem readNumber16_chunk (l : List Nat) (v : Nat) (rest : List Nat)
    (h : readNumber 16 4 65535 true l = some (v, rest)) :
    ∃ c : List Nat, l = c ++ rest ∧ c ≠ [] ∧ c.all isHexDig = true := by
  unfold readNumber at h
  by_cases h1 : (readDigits 16 l).1 = []
  · rw [if_pos h1] at h; cases h
  · rw [if_neg h1] at h
    by_cases h2 : 4 < (readDigits 16 l).1.length
    · rw [if_pos h2] at h; cases h
    · rw [if_neg h2] at h
      by_cases h3 : 65535 < radixVal 16 (readDigits 16 l).1
      · rw [if_pos h3] at h; cases h
      · rw [if_neg h3, if_neg (by simp)] at h
        obtain ⟨hv, hr⟩ := Prod.mk.injEq _ _ _ _ ▸ Option.some.inj h
        refine ⟨(readDigits 16 l).1, ?_, h1, ?_⟩
        · rw [← hr]; exact (readDigits_append 16 l).symm
        · have := readDigits_all 16 l
          rw [List.all_eq_true] at this ⊢
          intro b hb
          have hd := this b hb
          rwa [digitVal16_isSome] at hd

/-- Inversion of `read_separator`. -/
theorem readSep_inv {α : Type} (sep i : Nat)
    (inner : List Nat → Option (α × List Nat)) (l : List Nat) (v : α)
    (rest : List Nat) (h : readSep sep i inner l = some (v, rest)) :
    (i = 0 ∧ inner l = some (v, rest)) ∨
    (∃ bs, l = sep :: bs ∧ inner bs = some (v, rest)) := by
  unfold readSep at h
  by_cases hi : i = 0
  · rw [if_pos hi] at h
    exact Or.inl ⟨hi, h⟩
  · rw [if_neg hi] at h
    cases l with
    | nil => cases h
    | cons b bs =>
      dsimp only at h
      by_cases hb : b = sep
      · rw [if_pos hb] at h
        exact Or.inr ⟨bs, by rw [hb], h⟩
      · rw [if_neg hb] at h
        cases h

/-- A successful `read_ipv4_addr` consumes a dotted decimal quad. -/
theorem readIpv4Addr_chunk (l q rest : List Nat)
    (h : readIpv4Addr l = some (q, rest)) :
    ∃ c, l = c ++ rest ∧ QuadChunk c := by
  obtain ⟨d1, d2, d3, d4, hsh, h1, h2, h3, h4, _, _⟩ :=
    (readIpv4Addr_some_iff l q rest).mp h
  refine ⟨d1 ++ 46 :: (d2 ++ 46 :: (d3 ++ 46 :: d4)), ?_,
    d1, d2, d3, d4, rfl, h1, h2, h3, h4⟩
  rw [hsh]
  simp [List.append_assoc]

theorem readGroupsAux_succ (fuel i : Nat) (acc l : List Nat) :
    readGroupsAux (fuel + 1) i acc l =
      (match (if 1 ≤ fuel then readSep 58 i readIpv4Addr l else none) with
      | some (q, rest) =>
        (i + 2, true,
          acc ++ [q.getD 0 0 * 256 + q.getD 1 0, q.getD 2 0 * 256 + q.getD 3 0], rest)
      | none =>
        match readSep 58 i (readNumber 16 4 65535 true) l with
        | some (g, rest) => readGroupsAux fuel (i + 1) (acc ++ [g]) rest
        | none => (i, false, acc, l)) := rfl

/-- The text consumed by `read_groups` is a run of hex digits and colons,
followed, exactly when the embedded-IPv4 flag is set, by a dotted decimal
quad. -/
theorem readGroupsAux_chunk : ∀ (fuel i : Nat) (acc l : List Nat)
    (sz : Nat) (b4 : Bool) (gs rest : List Nat),
    readGroupsAux fuel i acc l = (sz, b4, gs, rest) →
    ∃ c q, l = c ++ (q ++ rest) ∧ c.all isHexColon = true ∧
      ((b4 = false ∧ q = []) ∨ (b4 = true ∧ QuadChunk q)) := by
  intro fuel
  induction fuel with
  | zero =>
    intro i acc l sz b4 gs rest h
    have h0 : ((i, false, acc, l) : Nat × Bool × List Nat × List Nat) =
        (sz, b4, gs, rest) := h
    simp only [Prod.mk.injEq] at h0
    obtain ⟨h1, h2, h3, h4⟩ := h0
    exact ⟨[], [], by simp [h4], rfl, Or.inl ⟨h2.symm, rfl⟩⟩
  | succ fuel ih =>
    intro i acc l sz b4 gs rest h
    rw [readGroupsAux_succ] at h
    cases hq : (if 1 ≤ fuel then readSep 58 i readIpv4Addr l else none) with
    | some p =>
      obtain ⟨qd, rest'⟩ := p
      rw [hq] at h
      dsimp only at h
      simp only [Prod.mk.injEq] at h
      obtain ⟨h1, h2, h3, h4⟩ := h
      have hsep : readSep 58 i readIpv4Addr l = some (qd, rest') := by
        by_cases hf : 1 ≤ fuel
        · rwa [if_pos hf] at hq
        · rw [if_neg hf] at hq; cases hq
      rcases readSep_inv 58 i readIpv4Addr l qd rest' hsep with ⟨_, hinner⟩ | ⟨bs, hbs, hinner⟩
      · obtain ⟨c4, hc4, hquad⟩ := readIpv4Addr_chunk l qd rest' hinner
        exact ⟨[], c4, by rw [hc4, ← h4]; simp, rfl, Or.inr ⟨h2.symm, hquad⟩⟩
      · obtain ⟨c4, hc4, hquad⟩ := readIpv4Addr_chunk bs qd rest' hinner
        refine ⟨[58], c4, ?_, rfl, Or.inr ⟨h2.symm, hquad⟩⟩
        rw [hbs, hc4, ← h4]
        rfl
    | none =>
      rw [hq] at h
      dsimp only at h
      cases hg : readSep 58 i (readNumber 16 4 65535 true) l with
      | some p =>
        obtain ⟨g, rest'⟩ := p
        rw [hg] at h
        dsimp only at h
        obtain ⟨c2, q2, hsplit, hall2, hdisj⟩ :=
          ih (i + 1) (acc ++ [g]) rest' sz b4 gs rest h
        rcases readSep_inv 58 i _ l g rest' hg with ⟨_, hinner⟩ | ⟨bs, hbs, hinner⟩
        · obtain ⟨c1, hc1, hne, hall1⟩ := readNumber16_chunk l g rest' hinner
          refine ⟨c1 ++ c2, q2, ?_, ?_, hdisj⟩
          · rw [hc1, hsplit]
            simp [List.append_assoc]
          · rw [List.all_append, Bool.and_eq_true, hall2]
            refine ⟨?_, rfl⟩
            rw [List.all_eq_true] at hall1 ⊢
            intro b hb
            unfold isHexColon
            rw [hall1 b hb]
            rfl
        · obtain ⟨c1, hc1, hne, hall1⟩ := readNumber16_chunk bs g rest' hinner
          refine ⟨58 :: c1 ++ c2, q2, ?_, ?_, hdisj⟩
          · rw [hbs, hc1, hsplit]
            simp [List.append_assoc]
          · rw [List.all_append, Bool.and_eq_true, hall2]
            refine ⟨?_, rfl⟩
            rw [List.all_eq_true] at hall1 ⊢
            intro b hb
            rcases List.mem_cons.mp hb with rfl | hb
            · rfl
            · unfold isHexColon
              rw [hall1 b hb]
              rfl
      | none =>
        rw [hg] at h
        dsimp only at h
        simp only [Prod.mk.injEq] at h
        obtain ⟨h1, h2, h3, h4⟩ := h
        exact ⟨[], [], by simp [h4], rfl, Or.inl ⟨h2.symm, rfl⟩⟩

/-- The text consumed by `read_ipv6_addr` is a run of hex digits and
colons, optionally followed by a terminal dotted decimal quad. -/
theorem readIpv6Addr_chunk (l g rest : List Nat)
    (h : readIpv6Addr l = some (g, rest)) :
    ∃ c q, l = c ++ (q ++ rest) ∧ c.all isHexColon = true ∧
      (q = [] ∨ QuadChunk q) := by
  unfold readIpv6Addr at h
  cases hG : readGroups 8 l with
  | mk hs p =>
    obtain ⟨hv4, hg0, l1⟩ := p
    rw [hG] at h
    dsimp only at h
    by_cases h8 : hs = 8
    · rw [if_pos h8] at h
      obtain ⟨hgg, hl1⟩ := Prod.mk.injEq _ _ _ _ ▸ Option.some.inj h
      obtain ⟨c, q, hsplit, hall, hdisj⟩ :=
        readGroupsAux_chunk 8 0 [] l hs hv4 hg0 l1 hG
      refine ⟨c, q, by rw [hsplit, hl1], hall, ?_⟩
      rcases hdisj with ⟨_, hq⟩ | ⟨_, hq⟩
      · exact Or.inl hq
      · exact Or.inr hq
    · rw [if_neg h8] at h
      by_cases hv : hv4 = true
      · rw [hv] at h
        simp only [if_true] at h
        cases h
      · rw [Bool.not_eq_true] at hv
        rw [hv] at h
        simp only [Bool.false_eq_true, if_false] at h
        obtain ⟨c1, q1, hsplit1, hall1, hdisj1⟩ :=
          readGroupsAux_chunk 8 0 [] l hs hv4 hg0 l1 hG
        have hq1 : q1 = [] := by
          rcases hdisj1 with ⟨_, hq⟩ | ⟨hb, _⟩
          · exact hq
          · rw [hv] at hb; cases hb
        rw [hq1, List.nil_append] at hsplit1
        split at h
        · next x l2 =>
          cases hT : readGroups (8 - (hs + 1)) l2 with
          | mk ts pt =>
            obtain ⟨tv4, tg, l3⟩ := pt
            rw [hT] at h
            dsimp only at h
            obtain ⟨hgg, hl3⟩ := Prod.mk.injEq _ _ _ _ ▸ Option.some.inj h
            obtain ⟨c2, q2, hsplit2, hall2, hdisj2⟩ :=
              readGroupsAux_chunk (8 - (hs + 1)) 0 [] l2 ts tv4 tg l3 hT
            refine ⟨c1 ++ 58 :: 58 :: c2, q2, ?_, ?_, ?_⟩
            · rw [hsplit1, hsplit2, hl3]
              simp [List.append_assoc]
            · rw [List.all_append, Bool.and_eq_true, hall1]
              refine ⟨rfl, ?_⟩
              rw [List.all_cons, List.all_cons, hall2]
              rfl
            · rcases hdisj2 with ⟨_, hq⟩ | ⟨_, hq⟩
              · exact Or.inl hq
              · exact Or.inr hq
        · cases h

/-- An `IpAddr::from_str` result in the V6 arm comes from a complete
`read_ipv6_addr` parse. -/
theorem rustParseIpAddr_inr_inv (l g : List Nat)
    (h : rustParseIpAddr l = some (.inr g)) : readIpv6Addr l = some (g, []) := by
  unfold rustParseIpAddr at h
  cases h4 : readIpv4Addr l with
  | some p =>
    obtain ⟨q, rest⟩ := p
    rw [h4] at h
    dsimp only at h
    by_cases hr : rest = []
    · rw [if_pos hr] at h
      simp at h
    · rw [if_neg hr] at h
      cases h
  | none =>
    rw [h4] at h
    dsimp only at h
    cases h6 : readIpv6Addr l with
    | none => rw [h6] at h; cases h
    | some p =>
      obtain ⟨g', rest⟩ := p
      rw [h6] at h
      dsimp only at h
      by_cases hr : rest = []
      · rw [if_pos hr] at h
        have hg := Sum.inr.inj (Option.some.inj h)
        rw [hr, hg]
      · rw [if_neg hr] at h
        cases h

/-- Decomposition of a string accepted by the V6 arm: a hex/colon run
followed by an optional terminal dotted quad. -/
theorem v6_text_decomp (t g : List Nat) (h : rustParseIpAddr t = some (.inr g)) :
    ∃ c q, t = c ++ q ∧ c.all isHexColon = true ∧ (q = [] ∨ QuadChunk q) := by
  obtain ⟨c, q, hsplit, hall, hdisj⟩ :=
    readIpv6Addr_chunk t g [] (rustParseIpAddr_inr_inv t g h)
  exact ⟨c, q, by rw [hsplit]; simp, hall, hdisj⟩

theorem quad_mem (q : List Nat) (hq : QuadChunk q) :
    ∀ b ∈ q, isDig b = true ∨ b = 46 := by
  obtain ⟨d1, d2, d3, d4, hsh, h1, h2, h3, h4⟩ := hq
  subst hsh
  intro b hb
  have a1 := (octetOk_elim _ h1).2.1
  have a2 := (octetOk_elim _ h2).2.1
  have a3 := (octetOk_elim _ h3).2.1
  have a4 := (octetOk_elim _ h4).2.1
  simp only [List.mem_append, List.mem_cons] at hb
  rcases hb with h | h | h | h | h | h | h
  · exact Or.inl (List.all_eq_true.mp a1 b h)
  · exact Or.inr h
  · exact Or.inl (List.all_eq_true.mp a2 b h)
  · exact Or.inr h
  · exact Or.inl (List.all_eq_true.mp a3 b h)
  · exact Or.inr h
  · exact Or.inl (List.all_eq_true.mp a4 b h)

/-- A dotted quad has a dot at a positive index. -/
theorem quad_dot (q : List Nat) (hq : QuadChunk q) :
    ∃ k, 1 ≤ k ∧ q.get? k = some 46 := by
  obtain ⟨d1, d2, d3, d4, hsh, h1, _, _, _⟩ := hq
  subst hsh
  refine ⟨d1.length, ?_, ?_⟩
  · have := (octetOk_length d1 h1).1
    omega
  · rw [List.get?_append_right (le_refl _)]
    simp

theorem joinDots_head_get? (p2 : List Nat) (ps2 : List (List Nat)) (hne : p2 ≠ []) :
    (joinDots (p2 :: ps2)).get? 0 = p2.get? 0 := by
  cases ps2 with
  | nil => rfl
  | cons p3 ps3 =>
    rw [joinDots_cons_cons, List.get?_append (List.length_pos.mpr hne)]

/-- In a dot-joined list of nonempty digit strings, every dot is followed
by a digit. -/
theorem textDotDigit_join : ∀ ps : List (List Nat),
    (∀ p ∈ ps, p ≠ [] ∧ p.all isDig = true) → textDotDigit (joinDots ps) := by
  intro ps
  induction ps with
  | nil =>
    intro _ i hi
    simp [joinDots] at hi
  | cons p ps ih =>
    intro hall
    cases ps with
    | nil =>
      intro i hi
      have hp := hall p (by simp)
      have hmem : (46 : Nat) ∈ p := List.get?_mem hi
      exact absurd (List.all_eq_true.mp hp.2 46 hmem) (by decide)
    | cons p2 ps2 =>
      rw [joinDots_cons_cons]
      intro i hi
      have hp := hall p (by simp)
      have hp2 := hall p2 (by simp)
      by_cases hlt : i < p.length
      · rw [List.get?_append hlt] at hi
        have hmem : (46 : Nat) ∈ p := List.get?_mem hi
        exact absurd (List.all_eq_true.mp hp.2 46 hmem) (by decide)
      · push_neg at hlt
        rw [List.get?_append_right hlt] at hi
        cases hk : i - p.length with
        | zero =>
          refine ⟨p2.headD 0, ?_, ?_⟩
          · rw [List.get?_append_right (by omega),
              show i + 1 - p.length = 1 from by omega, List.get?_cons_succ,
              joinDots_head_get? p2 ps2 hp2.1]
            cases p2 with
            | nil => exact absurd rfl hp2.1
            | cons a as => rfl
          · cases p2 with
            | nil => exact absurd rfl hp2.1
            | cons a as =>
              have := List.all_eq_true.mp hp2.2 a (by simp)
              simpa using this
        | succ k =>
          rw [hk, List.get?_cons_succ] at hi
          obtain ⟨b, hb, hd⟩ := ih (fun x hx => hall x (by simp [hx])) k hi
          refine ⟨b, ?_, hd⟩
          rw [List.get?_append_right (by omega),
            show i + 1 - p.length = k + 2 from by omega, List.get?_cons_succ]
          exact hb

theorem textDotDigit_quad (q : List Nat) (hq : QuadChunk q) : textDotDigit q := by
  obtain ⟨d1, d2, d3, d4, hsh, h1, h2, h3, h4⟩ := hq
  have hj : q = joinDots [d1, d2, d3, d4] := by
    rw [hsh, joinDots_cons_cons, joinDots_cons_cons, joinDots_cons_cons]
    rfl
  rw [hj]
  apply textDotDigit_join
  intro p hp
  simp only [List.mem_cons, List.not_mem_nil, or_false] at hp
  rcases hp with rfl | rfl | rfl | rfl
  · exact ⟨(octetOk_elim _ h1).1, (octetOk_elim _ h1).2.1⟩
  · exact ⟨(octetOk_elim _ h2).1, (octetOk_elim _ h2).2.1⟩
  · exact ⟨(octetOk_elim _ h3).1, (octetOk_elim _ h3).2.1⟩
  · exact ⟨(octetOk_elim _ h4).1, (octetOk_elim _ h4).2.1⟩

theorem textDotDigit_append (c t : List Nat) (hc : ∀ b ∈ c, b ≠ 46)
    (ht : textDotDigit t) : textDotDigit (c ++ t) := by
  intro i hi
  by_cases hlt : i < c.length
  · rw [List.get?_append hlt] at hi
    exact absurd rfl (hc 46 (List.get?_mem hi))
  · push_neg at hlt
    rw [List.get?_append_right hlt] at hi
    obtain ⟨b, hb, hd⟩ := ht _ hi
    refine ⟨b, ?_, hd⟩
    rw [List.get?_append_right (by omega),
      show i + 1 - c.length = (i - c.length) + 1 from by omega]
    exact hb

theorem textAfterDot_of_append (c t : List Nat) (hc : ∀ b ∈ c, b ≠ 46)
    (ht : ∀ b ∈ t, isDig b = true ∨ b = 46) : textAfterDot (c ++ t) := by
  intro i j b hi hij hj
  by_cases hlt : i < c.length
  · rw [List.get?_append hlt] at hi
    exact absurd rfl (hc 46 (List.get?_mem hi))
  · push_neg at hlt
    rw [List.get?_append_right (by omega : c.length ≤ j)] at hj
    exact ht b (List.get?_mem hj)

/-- The three text-shape properties of a string accepted by the V6 arm. -/
theorem v6_parse_text_props (t g : List Nat)
    (h : rustParseIpAddr t = some (.inr g)) :
    textIp t ∧ textDotDigit t ∧ textAfterDot t := by
  obtain ⟨c, q, hsplit, hall, hdisj⟩ := v6_text_decomp t g h
  subst hsplit
  have hcndot : ∀ b ∈ c, b ≠ 46 := fun b hb =>
    isHexColon_ne_dot b (List.all_eq_true.mp hall b hb)
  have hcip : ∀ b ∈ c, is_ip_char b = true := fun b hb =>
    isHexColon_ip b (List.all_eq_true.mp hall b hb)
  rcases hdisj with rfl | hq
  · rw [List.append_nil]
    refine ⟨hcip, ?_, ?_⟩
    · intro i hi
      exact absurd rfl (hcndot 46 (List.get?_mem hi))
    · intro i j b hi _ _
      exact absurd rfl (hcndot 46 (List.get?_mem hi))
  · have hqmem := quad_mem q hq
    refine ⟨?_, textDotDigit_append c q hcndot (textDotDigit_quad q hq),
      textAfterDot_of_append c q hcndot hqmem⟩
    intro b hb
    rcases List.mem_append.mp hb with hb | hb
    · exact hcip b hb
    · exact digdot_ip b (hqmem b hb)

/-- Text-shape properties of a quad. -/
theorem quad_text_props (t : List Nat) (hq : QuadChunk t) :
    textIp t ∧ textDotDigit t ∧ textAfterDot t := by
  have hmem := quad_mem t hq
  refine ⟨fun b hb => digdot_ip b (hmem b hb), textDotDigit_quad t hq, ?_⟩
  intro i j b _ _ hj
  exact hmem b (List.get?_mem hj)

/-! ## Acceptance implies the text shapes -/

theorem validate_ipv6_parse (t : List Nat) (p l : Bool)
    (h : validate_ipv6 t p l = true) :
    ∃ g, rustParseIpAddr t = some (.inr g) := by
  unfold validate_ipv6 at h
  by_cases hlen : t.length < 2
  · rw [if_pos hlen] at h
    cases h
  · rw [if_neg hlen] at h
    cases hr : rustParseIpAddr t with
    | none =>
      rw [hr] at h
      dsimp only at h
      exact absurd h Bool.false_ne_true
    | some x =>
      cases x with
      | inl q =>
        rw [hr] at h
        dsimp only at h
        exact absurd h Bool.false_ne_true
      | inr g => exact ⟨g, rfl⟩

theorem validate_ipv4_parse (t : List Nat) (p l b : Bool)
    (h : validate_ipv4 t p l b = true) :
    ∃ q, parse_ipv4_bytes t = some q := by
  unfold validate_ipv4 at h
  cases hr : parse_ipv4_bytes t with
  | none =>
    rw [hr] at h
    dsimp only at h
    exact absurd h Bool.false_ne_true
  | some q => exact ⟨q, rfl⟩

/-- An accepted IPv4 text is a dotted quad of length at most 15. -/
theorem v4_accept_shape (t : List Nat) (p l b : Bool)
    (h : validate_ipv4 t p l b = true) :
    QuadChunk t ∧ t.length ≤ 15 := by
  obtain ⟨q, hq⟩ := validate_ipv4_parse t p l b h
  have hlen := (parse_some_facts t q hq).2.2.1
  have hr4 : rustParseIpv4 t = some q := by
    rw [rustParseIpv4_eq_parse]
    exact hq
  have hread : readIpv4Addr t = some (q, []) := by
    unfold rustParseIpv4 at hr4
    cases hx : readIpv4Addr t with
    | none => rw [hx] at hr4; cases hr4
    | some pr =>
      obtain ⟨q', rest⟩ := pr
      rw [hx] at hr4
      cases rest with
      | nil =>
        dsimp only at hr4
        rw [Option.some.inj hr4]
      | cons a r =>
        dsimp only at hr4
        cases hr4
  obtain ⟨c, hc, hquad⟩ := readIpv4Addr_chunk t q [] hread
  rw [List.append_nil] at hc
  subst hc
  exact ⟨hquad, by omega⟩

/-- Any text accepted by a validator has the three shape properties. -/
theorem accepted_text_props (v : Validator) (t : List Nat)
    (h : validatorAccepts v t = true) :
    textIp t ∧ textDotDigit t ∧ textAfterDot t := by
  cases v with
  | v4 p l b => exact quad_text_props t (v4_accept_shape t p l b h).1
  | v6 p l =>
    obtain ⟨g, hg⟩ := validate_ipv6_parse t p l h
    exact v6_parse_text_props t g hg

theorem rb_v6_elim (h : List Nat) (p l : Bool) (e : Nat) (he : e < h.length)
    (hrb : rightBoundaryOk h (Validator.v6 p l) e = true) :
    is_ip_char (h.getD e 0) = false := by
  unfold rightBoundaryOk at hrb
  rw [if_pos he] at hrb
  dsimp only at hrb
  rwa [Bool.not_eq_true'] at hrb

theorem rb_v4_elim (h : List Nat) (p l b : Bool) (e : Nat) (he : e < h.length)
    (hrb : rightBoundaryOk h (Validator.v4 p l b) e = true) :
    isDig (h.getD e 0) = false ∧
    ¬(h.getD e 0 = 46 ∧ e + 1 < h.length ∧ isDig (h.getD (e + 1) 0) = true) := by
  unfold rightBoundaryOk at hrb
  rw [if_pos he] at hrb
  dsimp only at hrb
  rw [Bool.not_eq_true', Bool.or_eq_false_iff] at hrb
  obtain ⟨h1, h2⟩ := hrb
  refine ⟨h1, ?_⟩
  rintro ⟨hc1, hc2, hc3⟩
  rcases Bool.and_eq_false_iff.mp h2 with hx | hy
  · rcases Bool.and_eq_false_iff.mp hx with ha | hb
    · rw [hc1] at ha
      simp at ha
    · rw [decide_eq_false_iff_not] at hb
      exact hb hc2
  · rw [hy] at hc3
    cases hc3

/-- **Key pairwise fact**: of two accepted matches, the later-ending one
starts at or after the earlier one's end. A strict overlap would place the
byte after the first match inside the second match's valid address text,
contradicting the first match's right-boundary acceptance. -/
theorem emitted_no_overlap (h : List Nat) (m0 m1 : Nat × Nat)
    (h0 : emittedOk h m0) (h1 : emittedOk h m1) (hee : m0.2 < m1.2) :
    m0.2 ≤ m1.1 := by
  obtain ⟨s0, e0⟩ := m0
  obtain ⟨s1, e1⟩ := m1
  dsimp only at hee ⊢
  obtain ⟨v0, hbs0, hlt0, hle0, hrb0, hacc0, hlb0⟩ := h0
  obtain ⟨v1, hbs1, hlt1, hle1, hrb1, hacc1, hlb1⟩ := h1
  dsimp only at hbs0 hlt0 hle0 hrb0 hacc0 hlb0 hbs1 hlt1 hle1 hrb1 hacc1 hlb1
  by_contra hover
  push_neg at hover
  have he0len : e0 < h.length := lt_of_lt_of_le hee hle1
  obtain ⟨hip1, hdd1, had1⟩ := accepted_text_props v1 _ hacc1
  have htlen1 : (sliceList h s1 e1).length = e1 - s1 :=
    sliceList_length h s1 e1 (le_of_lt hlt1) hle1
  have hge0 : (sliceList h s1 e1).get? (e0 - s1) = some (h.getD e0 0) := by
    rw [sliceList_get? h s1 e1 e0 (by omega) hee]
    exact get?_getD h e0 he0len
  have hipe0 : is_ip_char (h.getD e0 0) = true := hip1 _ (List.get?_mem hge0)
  cases v0 with
  | v6 p l =>
    have hf := rb_v6_elim h p l e0 he0len hrb0
    rw [hipe0] at hf
    cases hf
  | v4 p l b =>
    obtain ⟨hnd, hndot⟩ := rb_v4_elim h p l b e0 he0len hrb0
    obtain ⟨hquad0, hlen0⟩ := v4_accept_shape _ p l b hacc0
    have htlen0 : (sliceList h s0 e0).length = e0 - s0 :=
      sliceList_length h s0 e0 (le_of_lt hlt0) hle0
    have hs1s0 : s1 ≤ s0 := by
      by_contra hgt
      push_neg at hgt
      have hin : (sliceList h s0 e0).get? (s1 - 1 - s0) = some (h.getD (s1 - 1) 0) := by
        rw [sliceList_get? h s0 e0 (s1 - 1) (by omega) (by omega)]
        exact get?_getD h (s1 - 1) (by omega)
      obtain ⟨hip0, _, _⟩ := accepted_text_props (Validator.v4 p l b) _ hacc0
      have hipb : is_ip_char (h.getD (s1 - 1) 0) = true := hip0 _ (List.get?_mem hin)
      rcases hlb1 with hz | hnip
      · omega
      · rw [hipb] at hnip
        cases hnip
    obtain ⟨k, hk1, hkdot⟩ := quad_dot _ hquad0
    have hklt : k < e0 - s0 := by
      obtain ⟨hlt, _⟩ := List.get?_eq_some.mp hkdot
      rwa [htlen0] at hlt
    have hdotg : h.get? (s0 + k) = some 46 := by
      rw [← sliceList_get? h s0 e0 (s0 + k) (by omega) (by omega),
        show s0 + k - s0 = k from by omega]
      exact hkdot
    have hdot1 : (sliceList h s1 e1).get? (s0 + k - s1) = some 46 := by
      rw [sliceList_get? h s1 e1 (s0 + k) (by omega) (by omega)]
      exact hdotg
    have hafter := had1 (s0 + k - s1) (e0 - s1) (h.getD e0 0) hdot1 (by omega) hge0
    rcases hafter with hdig | hdot
    · rw [hdig] at hnd
      cases hnd
    · obtain ⟨b', hb', hd'⟩ := hdd1 (e0 - s1) (by rw [hge0, hdot])
      have hb'lt : e0 - s1 + 1 < (sliceList h s1 e1).length :=
        (List.get?_eq_some.mp hb').1
      rw [htlen1] at hb'lt
      have he1' : e0 + 1 < e1 := by omega
      have hb'v : (sliceList h s1 e1).get? (e0 - s1 + 1) = some (h.getD (e0 + 1) 0) := by
        rw [show e0 - s1 + 1 = (e0 + 1) - s1 from by omega,
          sliceList_get? h s1 e1 (e0 + 1) (by omega) he1']
        exact get?_getD h (e0 + 1) (by omega)
      rw [hb'v] at hb'
      have hb'eq : b' = h.getD (e0 + 1) 0 := (Option.some.inj hb').symm
      exact hndot ⟨hdot, by omega, by rw [← hb'eq]; exact hd'⟩

theorem findIterAux_succ (h : List Nat) (dfa : Nat → Option (Nat × Nat))
    (vals : List Validator) (fuel pos : Nat) :
    findIterAux h dfa vals (fuel + 1) pos =
      (match dfa pos with
      | none => []
      | some (e, pid) =>
        match vals.get? pid with
        | none => []
        | some v =>
          if rightBoundaryOk h v e &&
              validatorAccepts v (sliceList h (backscanStart h e) e) then
            (backscanStart h e, e) :: findIterAux h dfa vals fuel e
          else findIterAux h dfa vals fuel e) := rfl

/-- Soundness of the search loop under the oracle hypotheses: every
emitted range satisfies `emittedOk` and ends after the search position,
and consecutive ranges do not overlap. -/
theorem findIterAux_sound (h : List Nat) (dfa : Nat → Option (Nat × Nat))
    (vals : List Validator)
    (Hdfa : ∀ p e pid, dfa p = some (e, pid) →
      p < e ∧ e ≤ h.length ∧ pid < vals.length)
    (Hb6 : ∀ p e pid prv lo, dfa p = some (e, pid) →
      vals.get? pid = some (Validator.v6 prv lo) →
      validatorAccepts (Validator.v6 prv lo)
        (sliceList h (backscanStart h e) e) = true →
      backscanStart h e = 0 ∨ is_ip_char (h.getD (backscanStart h e - 1) 0) = false) :
    ∀ fuel pos,
      (∀ m ∈ findIterAux h dfa vals fuel pos, emittedOk h m ∧ pos < m.2) ∧
      List.Chain' (fun a b : Nat × Nat => a.2 ≤ b.1)
        (findIterAux h dfa vals fuel pos) := by
  intro fuel
  induction fuel with
  | zero =>
    intro pos
    exact ⟨fun m hm => absurd hm (List.not_mem_nil m), List.chain'_nil⟩
  | succ fuel ih =>
    intro pos
    rw [findIterAux_succ]
    cases hd : dfa pos with
    | none => exact ⟨fun m hm => absurd hm (List.not_mem_nil m), List.chain'_nil⟩
    | some pe =>
      obtain ⟨e, pid⟩ := pe
      dsimp only
      obtain ⟨hpe, hel, hpid⟩ := Hdfa pos e pid hd
      cases hv : vals.get? pid with
      | none => exact absurd (List.get?_eq_none.mp hv) (by omega)
      | some v =>
        dsimp only
        by_cases hcond : (rightBoundaryOk h v e &&
            validatorAccepts v (sliceList h (backscanStart h e) e)) = true
        · rw [if_pos hcond]
          rw [Bool.and_eq_true] at hcond
          obtain ⟨hrb, hacc⟩ := hcond
          have hok : emittedOk h (backscanStart h e, e) := by
            refine ⟨v, rfl, backscanStart_lt h e (by omega), hel, hrb, hacc, ?_⟩
            cases v with
            | v6 prv lo => exact Hb6 pos e pid prv lo hd hv hacc
            | v4 prv lo br =>
              rcases backscan_boundary_or_cap h e with hb | hcap
              · exact hb
              · exfalso
                obtain ⟨_, hlen15⟩ := v4_accept_shape _ prv lo br hacc
                rw [sliceList_length h _ e
                  (le_of_lt (backscanStart_lt h e (by omega))) hel] at hlen15
                omega
          have hrest := ih e
          constructor
          · intro m hm
            rcases List.mem_cons.mp hm with rfl | hm'
            · exact ⟨hok, by omega⟩
            · obtain ⟨hm'ok, hm'e⟩ := hrest.1 m hm'
              exact ⟨hm'ok, by omega⟩
          · rw [List.chain'_cons']
            refine ⟨?_, hrest.2⟩
            intro m2 hm2
            have hm2mem : m2 ∈ findIterAux h dfa vals fuel e :=
              List.mem_of_mem_head? hm2
            obtain ⟨hok2, he2⟩ := hrest.1 m2 hm2mem
            exact emitted_no_overlap h (backscanStart h e, e) m2 hok hok2 he2
        · rw [if_neg hcond]
          have hrest := ih e
          constructor
          · intro m hm
            obtain ⟨hmok, hme⟩ := hrest.1 m hm
            exact ⟨hmok, by omega⟩
          · exact hrest.2

/-- **C6.** Under two facts about the DFA candidate stream — every
candidate ends after the search position, within the haystack, with a
pattern id naming a validator; and a candidate routed to the IPv6
validator *whose backscanned window the validator accepts* (i.e. one that
would be emitted) has its backward scan stopped at a word boundary rather
than at the 40-byte cap — every range yielded by `find_iter` satisfies
`start < end ≤ |haystack|`, and consecutive ranges `(s_i, e_i)`,
`(s_i+1, e_i+1)` satisfy `e_i ≤ s_i+1` (left-to-right, non-overlapping).
Rejected candidates may cap freely, as they do on long IP-character runs.
The IPv4 cap case needs no hypothesis: a capped window is 40 bytes, past
the 15-byte length gate. -/
theorem C6_find_iter_ordered (h : List Nat) (dfa : Nat → Option (Nat × Nat))
    (vals : List Validator)
    (Hdfa : ∀ p e pid, dfa p = some (e, pid) →
      p < e ∧ e ≤ h.length ∧ pid < vals.length)
    (Hb6 : ∀ p e pid prv lo, dfa p = some (e, pid) →
      vals.get? pid = some (Validator.v6 prv lo) →
      validatorAccepts (Validator.v6 prv lo)
        (sliceList h (backscanStart h e) e) = true →
      backscanStart h e = 0 ∨ is_ip_char (h.getD (backscanStart h e - 1) 0) = false) :
    (∀ m ∈ findIter h dfa vals, m.1 < m.2 ∧ m.2 ≤ h.length) ∧
    List.Chain' (fun a b : Nat × Nat => a.2 ≤ b.1) (findIter h dfa vals) := by
  have hs := findIterAux_sound h dfa vals Hdfa Hb6 (h.length + 1) 0
  refine ⟨?_, hs.2⟩
  intro m hm
  obtain ⟨⟨v, _, hlt, hle, _, _, _⟩, _⟩ := hs.1 m hm
  exact ⟨hlt, hle⟩

/-- Witness for C6 at a concrete haystack and candidate stream. -/
theorem C6_find_iter_ordered_witness :
    (∀ m ∈ findIter (strBytes "a 1.2.3.4 b")
        (fun p => if p < 9 then some (9, 0) else none) vals5,
      m.1 < m.2 ∧ m.2 ≤ (strBytes "a 1.2.3.4 b").length) ∧
    List.Chain' (fun a b : Nat × Nat => a.2 ≤ b.1)
      (findIter (strBytes "a 1.2.3.4 b")
        (fun p => if p < 9 then some (9, 0) else none) vals5) := by
  apply C6_find_iter_ordered
  · intro p e pid hp
    by_cases hlt : p < 9
    · rw [if_pos hlt] at hp
      simp only [Option.some.injEq, Prod.mk.injEq] at hp
      obtain ⟨he, hpid⟩ := hp
      subst he
      subst hpid
      exact ⟨hlt, by decide, by decide⟩
    · rw [if_neg hlt] at hp
      cases hp
  · intro p e pid prv lo hp hv _hacc
    by_cases hlt : p < 9
    · rw [if_pos hlt] at hp
      simp only [Option.some.injEq, Prod.mk.injEq] at hp
      obtain ⟨he, hpid⟩ := hp
      subst hpid
      simp [vals5] at hv
    · rw [if_neg hlt] at hp
      cases hp

theorem decorateGo_cons (line : List Nat) (deco : Nat × Nat → List Nat)
    (r : Nat × Nat) (rs : List (Nat × Nat)) (lastPos : Nat) :
    decorateGo line deco (r :: rs) lastPos =
      sliceList line lastPos r.1 ++ deco r ++ decorateGo line deco rs r.2 := rfl

theorem drop_slice_split (line : List Nat) (lp a : Nat) (h : lp ≤ a) :
    sliceList line lp a ++ line.drop a = line.drop lp := by
  unfold sliceList
  have hd : line.drop a = (line.drop lp).drop (a - lp) := by
    rw [List.drop_drop]
    congr 1
    omega
  rw [hd]
  exact List.take_append_drop (a - lp) (line.drop lp)

/-- Decorating with the identity decoration reproduces the suffix of the
line from the cursor, for any ordered non-overlapping range list starting
at or after the cursor. -/
theorem decorateGo_id (line : List Nat) : ∀ (rs : List (Nat × Nat)) (lastPos : Nat),
    (∀ r ∈ rs, r.1 ≤ r.2) →
    List.Chain' (fun a b : Nat × Nat => a.2 ≤ b.1) rs →
    (∀ r ∈ rs.head?, lastPos ≤ r.1) →
    decorateGo line (fun r => sliceList line r.1 r.2) rs lastPos =
      line.drop lastPos := by
  intro rs
  induction rs with
  | nil => intro lastPos _ _ _; rfl
  | cons r rs ih =>
    intro lastPos hord hchain hhead
    have hlp : lastPos ≤ r.1 := hhead r rfl
    have hr12 : r.1 ≤ r.2 := hord r (by simp)
    rw [List.chain'_cons'] at hchain
    obtain ⟨hhd2, hchain2⟩ := hchain
    rw [decorateGo_cons,
      ih r.2 (fun x hx => hord x (by simp [hx])) hchain2 hhd2,
      List.append_assoc, drop_slice_split line r.1 r.2 hr12,
      drop_slice_split line lastPos r.1 hlp]

/-- **C1.** In decorate mode the output is the concatenation of the
unmatched gaps and the decorations, in order: with no matches the output
equals the input byte-for-byte; replacing every accepted range by the
bytes it covers reproduces the input exactly (every unmatched byte is
written unchanged, at its place in the gap order); and on a concrete line
the extractor's ranges produce exactly gap–decoration–gap. -/
theorem C1_decorate_gap_preservation :
    (∀ (line : List Nat) (deco : Nat × Nat → List Nat), decorate line deco [] = line)
    ∧ (∀ (line : List Nat) (rs : List (Nat × Nat)),
        (∀ r ∈ rs, r.1 ≤ r.2) →
        List.Chain' (fun a b : Nat × Nat => a.2 ≤ b.1) rs →
        decorate line (fun r => sliceList line r.1 r.2) rs = line)
    ∧ decorate (strBytes "a 1.2.3.4 b") (fun _ => strBytes "X")
        (findIter (strBytes "a 1.2.3.4 b")
          (fun p => if p < 9 then some (9, 0) else none) vals5)
      = strBytes "a X b" := by
  refine ⟨fun line deco => List.drop_zero line, ?_, by decide⟩
  intro line rs hord hchain
  unfold decorate
  rw [decorateGo_id line rs 0 hord hchain (fun r _ => Nat.zero_le _)]
  exact List.drop_zero line

/-- Witness for C1's identity-decoration clause at a concrete line and
range list. -/
theorem C1_decorate_gap_preservation_witness :
    decorate (strBytes "a 1.2.3.4 b")
      (fun r => sliceList (strBytes "a 1.2.3.4 b") r.1 r.2) [(2, 9)]
      = strBytes "a 1.2.3.4 b" :=
  C1_decorate_gap_preservation.2.1 (strBytes "a 1.2.3.4 b") [(2, 9)]
    (by decide) (by simp)

end GeoIpSed
